import Mathlib

/-!
Verification of selected behaviours of the llm-mux gateway.

Each Go function named in a claim is shallowly embedded as an executable
Lean definition operating on an algebraic JSON model, lists and integers.
Definitions keep the source names.  Int64/time.Duration values are modelled
as `Int` (claims exclude overflow), Go strings as `String`/`List Char`.
-/

namespace LlmMux

/-- JSON value model used by the payload-manipulating functions
(`sseutil`, `cloudcode`, translator part builders).  Numbers are kept as
their raw literal text, since none of the verified functions inspects a
numeric value.  Object fields are an association list in document order;
the Go code holds them in a `map[string]any` and re-serializes with sorted
keys, which only permutes fields and is irrelevant to the properties here. -/
inductive Json where
  | null : Json
  | bool (b : Bool) : Json
  | num (raw : String) : Json
  | str (s : String) : Json
  | arr (items : List Json) : Json
  | obj (fields : List (String × Json)) : Json
deriving Repr

mutual

/-- Structural equality test on the JSON model. -/
def Json.beq : Json → Json → Bool
  | .null, .null => true
  | .bool a, .bool b => a == b
  | .num a, .num b => a == b
  | .str a, .str b => a == b
  | .arr a, .arr b => Json.beqList a b
  | .obj a, .obj b => Json.beqFields a b
  | _, _ => false

/-- Structural equality test on JSON arrays. -/
def Json.beqList : List Json → List Json → Bool
  | [], [] => true
  | a :: as, b :: bs => Json.beq a b && Json.beqList as bs
  | _, _ => false

/-- Structural equality test on JSON object field lists. -/
def Json.beqFields : List (String × Json) → List (String × Json) → Bool
  | [], [] => true
  | (k1, v1) :: as, (k2, v2) :: bs => k1 == k2 && Json.beq v1 v2 && Json.beqFields as bs
  | _, _ => false

end

mutual

theorem Json.beq_iff : ∀ (a b : Json), Json.beq a b = true ↔ a = b
  | .null, b => by cases b <;> simp [Json.beq]
  | .bool x, b => by cases b <;> simp [Json.beq]
  | .num x, b => by cases b <;> simp [Json.beq]
  | .str x, b => by cases b <;> simp [Json.beq]
  | .arr xs, b => by
      cases b <;> simp [Json.beq]
      exact Json.beqList_iff xs _
  | .obj xs, b => by
      cases b <;> simp [Json.beq]
      exact Json.beqFields_iff xs _

theorem Json.beqList_iff : ∀ (as bs : List Json), Json.beqList as bs = true ↔ as = bs
  | [], bs => by cases bs <;> simp [Json.beqList]
  | a :: as, [] => by simp [Json.beqList]
  | a :: as, b :: bs => by
      simp [Json.beqList, Json.beq_iff a b, Json.beqList_iff as bs]

theorem Json.beqFields_iff :
    ∀ (as bs : List (String × Json)), Json.beqFields as bs = true ↔ as = bs
  | [], bs => by cases bs <;> simp [Json.beqFields]
  | a :: as, [] => by simp [Json.beqFields]
  | (k1, v1) :: as, (k2, v2) :: bs => by
      simp [Json.beqFields, Json.beq_iff v1 v2, Json.beqFields_iff as bs, and_assoc]

end

instance : DecidableEq Json := fun a b => decidable_of_iff _ (Json.beq_iff a b)

/-- Key lookup on a JSON object (`gjson` single-key path `Get`). -/
def Json.getKey (j : Json) (k : String) : Option Json :=
  match j with
  | .obj fields => (fields.find? (fun kv => kv.1 == k)).map (·.2)
  | _ => none

/-- Go `j` is a JSON object. -/
def Json.isObj : Json → Bool
  | .obj _ => true
  | _ => false

/-- Go `j` is a JSON array. -/
def Json.isArr : Json → Bool
  | .arr _ => true
  | _ => false

/-! ### C3 — tool-call id conversion (`internal/translator/ir/response_builder.go`) -/

/-- Embedding of `toClaudeToolID` (response_builder.go:7).  The Go code
compares the first bytes of `id`; on the ASCII prefixes involved this is
the same as comparing the first characters. -/
def toClaudeToolID (id : String) : String :=
  if 6 < id.length ∧ id.data.take 6 = "toolu_".data then
    id
  else if 5 < id.length ∧ id.data.take 5 = "call_".data then
    "toolu_" ++ String.mk (id.data.drop 5)
  else
    "toolu_" ++ id

/-- Modelled from the spec: the reverse (Claude → OpenAI) rewrite of
tool-call ids.  No such function exists under `src/`; the spec states the
`call_` ↔ `toolu_` rewrite is bidirectional, so this mirrors
`toClaudeToolID` with the two prefixes exchanged. -/
def toOpenAIToolID (id : String) : String :=
  if 5 < id.length ∧ id.data.take 5 = "call_".data then
    id
  else if 6 < id.length ∧ id.data.take 6 = "toolu_".data then
    "call_" ++ String.mk (id.data.drop 6)
  else
    "call_" ++ id

theorem toClaudeToolID_call_cons (y : Char) (ys : List Char) :
    toClaudeToolID ("call_" ++ String.mk (y :: ys)) = "toolu_" ++ String.mk (y :: ys) := by
  have hdata : ("call_" ++ String.mk (y :: ys)).data = 'c' :: 'a' :: 'l' :: 'l' :: '_' :: y :: ys := by
    simp [String.data_append]
  have hlen : ("call_" ++ String.mk (y :: ys)).length = 6 + ys.length := by
    have h : ("call_" : String).length = 5 := rfl
    simp [String.length_append, String.length_mk, h]; omega
  have hneg : ¬(6 < ("call_" ++ String.mk (y :: ys)).length ∧
      ("call_" ++ String.mk (y :: ys)).data.take 6 = "toolu_".data) := by
    rintro ⟨-, htake⟩
    rw [hdata] at htake
    simp at htake
  have hpos : 5 < ("call_" ++ String.mk (y :: ys)).length ∧
      ("call_" ++ String.mk (y :: ys)).data.take 5 = "call_".data := by
    refine ⟨by rw [hlen]; omega, by rw [hdata]; rfl⟩
  rw [toClaudeToolID, if_neg hneg, if_pos hpos, hdata]
  rfl

theorem toOpenAIToolID_toolu_cons (y : Char) (ys : List Char) :
    toOpenAIToolID ("toolu_" ++ String.mk (y :: ys)) = "call_" ++ String.mk (y :: ys) := by
  have hdata : ("toolu_" ++ String.mk (y :: ys)).data = 't' :: 'o' :: 'o' :: 'l' :: 'u' :: '_' :: y :: ys := by
    simp [String.data_append]
  have hlen : ("toolu_" ++ String.mk (y :: ys)).length = 7 + ys.length := by
    have h : ("toolu_" : String).length = 6 := rfl
    simp [String.length_append, String.length_mk, h]; omega
  have hneg : ¬(5 < ("toolu_" ++ String.mk (y :: ys)).length ∧
      ("toolu_" ++ String.mk (y :: ys)).data.take 5 = "call_".data) := by
    rintro ⟨-, htake⟩
    rw [hdata] at htake
    simp at htake
  have hpos : 6 < ("toolu_" ++ String.mk (y :: ys)).length ∧
      ("toolu_" ++ String.mk (y :: ys)).data.take 6 = "toolu_".data := by
    refine ⟨by rw [hlen]; omega, by rw [hdata]; rfl⟩
  rw [toOpenAIToolID, if_neg hneg, if_pos hpos, hdata]
  rfl

/-- C3 counterexample: the `call_` ↔ `toolu_` rewrite is not a bijection on
ids and the round-trip is not the identity on every id.  `toClaudeToolID`
maps the two distinct ids `call_a` and `toolu_a` to the same Claude id, and
an id carrying neither prefix (here `abc`) is not recovered by converting
to the Claude form and back. -/
theorem toClaudeToolID_not_injective :
    toClaudeToolID "call_a" = toClaudeToolID "toolu_a" ∧
    ("call_a" : String) ≠ "toolu_a" ∧
    toOpenAIToolID (toClaudeToolID "abc") ≠ "abc" := by
  refine ⟨by decide, by decide, by decide⟩

/-- C3 (amended): on ids that already carry the documented namespacing —
`call_` plus a nonempty suffix for the OpenAI form, `toolu_` plus a
nonempty suffix for the Claude form — the two conversions are mutually
inverse.  The Claude → OpenAI direction is modelled from the spec (no such
function is under `src/`). -/
theorem toolID_roundtrip_prefixed (y : Char) (ys : List Char) :
    toOpenAIToolID (toClaudeToolID ("call_" ++ String.mk (y :: ys))) =
      "call_" ++ String.mk (y :: ys) ∧
    toClaudeToolID (toOpenAIToolID ("toolu_" ++ String.mk (y :: ys))) =
      "toolu_" ++ String.mk (y :: ys) := by
  constructor
  · rw [toClaudeToolID_call_cons, toOpenAIToolID_toolu_cons]
  · rw [toOpenAIToolID_toolu_cons, toClaudeToolID_call_cons]

/-! ### C5 — retry backoff (`src/unnamed/part_009`, `CalculateBackoff`) -/

/-- Embedding of `CalculateBackoff` (part_009:162).  `time.Duration` is an
int64 count of nanoseconds, modelled as `Int` (the claim excludes
overflow).  The random draw `rand.Int64N(int64(jitterDelay))`, which is
uniform on `[0, jitterDelay)`, is modelled by the extra argument `j`;
theorems quantify over every in-range `j`. -/
def CalculateBackoff (attempt : Nat) (baseDelay maxDelay jitterDelay j : Int) : Int :=
  let delay := baseDelay * 2 ^ attempt
  let delay := if maxDelay < delay then maxDelay else delay
  if 0 < jitterDelay then
    let delay := delay + j
    if maxDelay < delay then maxDelay else delay
  else
    delay

/-! ### C9 — image part emission (`from_ir/parts/content_parts.go`) -/

/-- The fields of `ir.ImagePart` read by `BuildImagePart`: inline base64
payload `data` with its `mimeType`, or a remote `url`. -/
structure ImagePart where
  data : String
  mimeType : String
  url : String
deriving Repr, DecidableEq

/-- Embedding of `BuildImagePart` (content_parts.go:26).  The Go function
takes `*ir.ImagePart` and returns a `map[string]any` or `nil`; the pointer
is modelled by `Option ImagePart` and the result by `Option Json`
(`none` = `nil`, which `BuildUserParts` drops from the output).
`strings.HasPrefix` is modelled by `List.isPrefixOf` on the character
lists (the prefixes involved are ASCII). -/
def BuildImagePart (img : Option ImagePart) : Option Json :=
  match img with
  | none => none
  | some img =>
    if img.data ≠ "" then
      some (.obj [("inlineData", .obj [("mimeType", .str img.mimeType), ("data", .str img.data)])])
    else if "files/".data.isPrefixOf img.url.data ∨ "gs://".data.isPrefixOf img.url.data then
      some (.obj [("fileData", .obj [("mimeType", .str img.mimeType), ("fileUri", .str img.url)])])
    else
      none

/-- C5: the delay computed by `CalculateBackoff` for attempt `n` is
`min(base * 2^n, max)` when jitter is disabled; with jitter enabled it lies
in `[min(base * 2^n, max), min(base * 2^n, max) + jitter)` for every
possible random draw `j ∈ [0, jitter)`. -/
theorem CalculateBackoff_bounds (attempt : Nat) (baseDelay maxDelay jitterDelay j : Int) :
    (0 < jitterDelay → 0 ≤ j → j < jitterDelay →
      min (baseDelay * 2 ^ attempt) maxDelay ≤
        CalculateBackoff attempt baseDelay maxDelay jitterDelay j ∧
      CalculateBackoff attempt baseDelay maxDelay jitterDelay j <
        min (baseDelay * 2 ^ attempt) maxDelay + jitterDelay) ∧
    (jitterDelay = 0 →
      CalculateBackoff attempt baseDelay maxDelay jitterDelay j =
        min (baseDelay * 2 ^ attempt) maxDelay) := by
  simp only [CalculateBackoff]
  generalize baseDelay * 2 ^ attempt = B
  constructor
  · intro h1 h2 h3
    constructor <;> split_ifs <;> omega
  · intro h
    split_ifs <;> omega

/-- Witness for C5 at attempt 1, base 500, max 30000, jitter 250, draw 100. -/
theorem CalculateBackoff_bounds_witness :
    min ((500 : Int) * 2 ^ 1) 30000 ≤ CalculateBackoff 1 500 30000 250 100 ∧
    CalculateBackoff 1 500 30000 250 100 < min ((500 : Int) * 2 ^ 1) 30000 + 250 :=
  (CalculateBackoff_bounds 1 500 30000 250 100).1 (by decide) (by decide) (by decide)

/-- C9 counterexample: an image part with no inline data whose URL carries
neither the `files/` nor the `gs://` prefix is dropped by `BuildImagePart`
(the function returns `nil` and `BuildUserParts` skips `nil` parts), rather
than passing the URL through untouched as the claim states. -/
theorem BuildImagePart_drops_other_urls :
    BuildImagePart (some ⟨"", "image/png", "https://example.com/cat.png"⟩) = none := by
  decide

/-- C9 (amended): `BuildImagePart` emits inline base64 data as an
`inlineData` part, emits `files/` and `gs://` references as `fileData`
parts preserving the URI, and drops every other image (returns `nil`). -/
theorem BuildImagePart_cases (img : ImagePart) :
    (img.data ≠ "" →
      BuildImagePart (some img) =
        some (.obj [("inlineData",
          .obj [("mimeType", .str img.mimeType), ("data", .str img.data)])])) ∧
    (img.data = "" →
      ("files/".data.isPrefixOf img.url.data = true ∨
        "gs://".data.isPrefixOf img.url.data = true) →
      BuildImagePart (some img) =
        some (.obj [("fileData",
          .obj [("mimeType", .str img.mimeType), ("fileUri", .str img.url)])])) ∧
    (img.data = "" →
      ¬("files/".data.isPrefixOf img.url.data = true ∨
        "gs://".data.isPrefixOf img.url.data = true) →
      BuildImagePart (some img) = none) := by
  obtain ⟨d, mt, u⟩ := img
  refine ⟨fun h1 => ?_, fun h1 h2 => ?_, fun h1 h2 => ?_⟩
  · simp only [BuildImagePart]
    rw [if_pos h1]
  · simp only at h1
    subst h1
    rcases h2 with h2 | h2 <;> simp [BuildImagePart, h2]
  · simp only at h1
    subst h1
    rw [not_or] at h2
    simp [BuildImagePart, h2.1, h2.2]

/-- Witness for C9 at a `gs://` file reference. -/
theorem BuildImagePart_cases_witness :
    BuildImagePart (some ⟨"", "image/png", "gs://bucket/obj"⟩) =
      some (.obj [("fileData",
        .obj [("mimeType", .str "image/png"), ("fileUri", .str "gs://bucket/obj")])]) :=
  (BuildImagePart_cases ⟨"", "image/png", "gs://bucket/obj"⟩).2.1 rfl (Or.inr (by decide))

/-! ### C6 — Cloud Code request envelope (`src/unnamed/part_012`) -/

/-- Embedding of `IsEnvelopeWrapped` (part_012:40): the payload is wrapped
iff it parses as a JSON object carrying a top-level `request` or `response`
key.  The Go byte-level guard (trimmed payload starting with an opening
brace) is the object test at the parsed level; `gjson.Get` on the plain
key `request` is `Json.getKey`. -/
def IsEnvelopeWrapped (payload : Json) : Bool :=
  payload.isObj && ((payload.getKey "request").isSome || (payload.getKey "response").isSome)

/-- Modelled from the spec: `sseutil.WrapEnvelope` is code of this
repository that is not under `src/` (part_012 only calls it).  The spec
says the Gemini payload is wrapped as a top-level `request` field:
`Output: {"request": {"contents": ..., "generationConfig": ...}}`. -/
def WrapEnvelope (payload : Json) : Json :=
  .obj [("request", payload)]

/-- Embedding of `RequestEnvelope` (part_012:16), a thin alias. -/
def RequestEnvelope (payload : Json) : Json :=
  WrapEnvelope payload

/-- Embedding of `EnsureRequestEnvelope` (part_012:53): wrap only when not
already wrapped. -/
def EnsureRequestEnvelope (payload : Json) : Json :=
  if IsEnvelopeWrapped payload then payload else RequestEnvelope payload

/-- C6: wrapping a payload in the Cloud Code request envelope is
idempotent — once wrapped, the `request` key is detected and the payload is
not wrapped again. -/
theorem EnsureRequestEnvelope_idempotent (payload : Json) :
    EnsureRequestEnvelope (EnsureRequestEnvelope payload) = EnsureRequestEnvelope payload := by
  unfold EnsureRequestEnvelope
  by_cases h : IsEnvelopeWrapped payload = true
  · rw [if_pos h, if_pos h]
  · rw [if_neg h]
    have hw : IsEnvelopeWrapped (RequestEnvelope payload) = true := rfl
    rw [if_pos hw]

/-! ### C4 — circuit breaker and user errors (`src/unnamed/part_009`, `part_014`) -/

/-- Error categories of the provider layer (`provider.ErrorCategory`; the
type itself is not under `src/` and is modelled from the spec's §7 error
kinds). -/
inductive ErrorCategory where
  | userError | authError | quotaError | transportError | upstreamError | cancelled
deriving Repr, DecidableEq

/-- A Go `error` value as `isUserError` observes it: whether the dynamic
type implements `StatusCode() int` and/or `Category() ErrorCategory`, and
what those methods return.  A Go `nil` error is `Option.none` at use
sites. -/
structure GoError where
  status : Option Int
  category : Option ErrorCategory
deriving Repr, DecidableEq

/-- Embedding of `isUserError` (part_014:82): nil errors are not user
errors; an error exposing a status code is a user error iff the code
is 400; otherwise an error exposing a category is a user error iff the
category is `CategoryUserError`. -/
def isUserError (err : Option GoError) : Bool :=
  match err with
  | none => false
  | some e =>
    match e.status with
    | some code => code == 400
    | none =>
      match e.category with
      | some c => c == ErrorCategory.userError
      | none => false

/-- The breaker settings read by the embedded state machine, from
`BreakerConfig` (part_009:38).  The failure ratio is a float64 in Go,
modelled as a rational. -/
structure BreakerConfig where
  maxRequests : Nat
  failureThreshold : Nat
  failureRatio : ℚ
  minRequests : Nat
  isSuccessful : Option GoError → Bool

/-- Embedding of `DefaultBreakerConfig` (part_009:55).  The Go function
reads the package variable `DefaultIsSuccessful` (injected by the provider
layer during init, `nil` when unset); that variable is the explicit
argument here. -/
def DefaultBreakerConfig (defaultIsSuccessful : Option (Option GoError → Bool)) : BreakerConfig :=
  { maxRequests := 3
    failureThreshold := 5
    failureRatio := 1 / 2
    minRequests := 10
    isSuccessful :=
      match defaultIsSuccessful with
      | some f => f
      | none => fun err => err.isNone }

/-- Modelled from the spec: the `is_successful` predicate the provider
layer injects into `resilience.DefaultIsSuccessful` (the init code is not
under `src/`).  Per §4.7, user-caused errors never count as breaker
failures; only transport and server errors can trip a breaker. -/
def providerIsSuccessful (err : Option GoError) : Bool :=
  err.isNone || isUserError err

/-- The gobreaker request counters (`gobreaker.Counts`). -/
structure Counts where
  requests : Nat
  totalSuccesses : Nat
  totalFailures : Nat
  consecutiveSuccesses : Nat
  consecutiveFailures : Nat
deriving Repr, DecidableEq

/-- The all-zero counters gobreaker starts with (and resets to on state
transitions). -/
def Counts.zero : Counts :=
  ⟨0, 0, 0, 0, 0⟩

/-- Embedding of the `ReadyToTrip` closure built in `NewCircuitBreaker`
(part_009:83): below `MinRequests` never trip; trip on
`ConsecutiveFailures ≥ FailureThreshold` or on failure ratio
`TotalFailures / Requests ≥ FailureRatio`. -/
def readyToTrip (cfg : BreakerConfig) (c : Counts) : Bool :=
  if c.requests < cfg.minRequests then false
  else if cfg.failureThreshold ≤ c.consecutiveFailures then true
  else decide (cfg.failureRatio ≤ (c.totalFailures : ℚ) / (c.requests : ℚ))

/-- The breaker states (`gobreaker.State`). -/
inductive BreakerState where
  | closed | opened | halfOpen
deriving Repr, DecidableEq

/-- Modelled from the spec: one request through the gobreaker state
machine (§4.7; the gobreaker library is an external dependency, not
repository code).  In Closed, the request is counted, then classified by
`IsSuccessful`; a failure trips to Open when `ReadyToTrip` fires.  In
HalfOpen, a success closes the breaker after `MaxRequests` consecutive
successes and any failure reopens it.  The time-driven Open → HalfOpen
transition is not a per-request step and is omitted (no trace used here
leaves Closed). -/
def breakerStep (cfg : BreakerConfig) (s : BreakerState × Counts) (err : Option GoError) :
    BreakerState × Counts :=
  match s.1 with
  | .closed =>
    let c := { s.2 with requests := s.2.requests + 1 }
    if cfg.isSuccessful err then
      (.closed, { c with totalSuccesses := c.totalSuccesses + 1,
                         consecutiveSuccesses := c.consecutiveSuccesses + 1,
                         consecutiveFailures := 0 })
    else
      let c := { c with totalFailures := c.totalFailures + 1,
                        consecutiveFailures := c.consecutiveFailures + 1,
                        consecutiveSuccesses := 0 }
      if readyToTrip cfg c then (.opened, Counts.zero) else (.closed, c)
  | .opened => (.opened, s.2)
  | .halfOpen =>
    if cfg.isSuccessful err then
      let c := { s.2 with requests := s.2.requests + 1,
                          totalSuccesses := s.2.totalSuccesses + 1,
                          consecutiveSuccesses := s.2.consecutiveSuccesses + 1,
                          consecutiveFailures := 0 }
      if cfg.maxRequests ≤ c.consecutiveSuccesses then (.closed, Counts.zero) else (.halfOpen, c)
    else
      (.opened, Counts.zero)

/-- Running a sequence of request outcomes through the breaker. -/
def breakerRun (cfg : BreakerConfig) (s : BreakerState × Counts)
    (errs : List (Option GoError)) : BreakerState × Counts :=
  errs.foldl (breakerStep cfg) s

theorem breakerRun_closed_of_successful (cfg : BreakerConfig)
    (errs : List (Option GoError)) (h : ∀ e ∈ errs, cfg.isSuccessful e = true) :
    ∀ c : Counts, (breakerRun cfg (.closed, c) errs).1 = .closed := by
  induction errs with
  | nil => intro c; rfl
  | cons e rest ih =>
    intro c
    have he : cfg.isSuccessful e = true := h e (List.mem_cons_self e rest)
    have hrest : ∀ e ∈ rest, cfg.isSuccessful e = true := fun x hx => h x (List.mem_cons_of_mem e hx)
    simp only [breakerRun, List.foldl_cons, breakerStep, he, if_true]
    exact ih hrest _

/-- C4: starting Closed, a breaker whose injected `is_successful` treats
user errors as successful never leaves the Closed state on a request
sequence that fails only with user errors. -/
theorem breaker_stays_closed_on_user_errors (cfg : BreakerConfig)
    (hcfg : ∀ e, isUserError e = true → cfg.isSuccessful e = true)
    (errs : List (Option GoError)) (herrs : ∀ e ∈ errs, isUserError e = true) :
    (breakerRun cfg (.closed, Counts.zero) errs).1 = .closed :=
  breakerRun_closed_of_successful cfg errs (fun e he => hcfg e (herrs e he)) Counts.zero

/-- Witness for C4: 100 consecutive HTTP-400 user errors leave the default
breaker (with the provider-injected `is_successful`) Closed. -/
theorem breaker_stays_closed_on_user_errors_witness :
    (breakerRun (DefaultBreakerConfig (some providerIsSuccessful)) (.closed, Counts.zero)
      (List.replicate 100 (some ⟨some 400, none⟩))).1 = .closed :=
  breaker_stays_closed_on_user_errors (DefaultBreakerConfig (some providerIsSuccessful))
    (fun e he => by simp [DefaultBreakerConfig, providerIsSuccessful, he])
    (List.replicate 100 (some ⟨some 400, none⟩))
    (fun e he => by
      rw [List.eq_of_mem_replicate he]
      decide)

/-! ### C10 — usage reporter publishes at most once (`src/unnamed/part_014`) -/

/-- The three token counters of `ir.Usage` that `publishWithOutcome`
inspects. -/
structure Usage where
  promptTokens : Int
  completionTokens : Int
  totalTokens : Int
deriving Repr, DecidableEq

/-- The per-call part of a published `usage.Record`: the outcome flag and
the usage payload.  The remaining fields (provider, model, source, api key,
auth id/index, request time) are fixed at reporter construction and are
identical in every record a reporter could publish. -/
structure UsageRecord where
  failed : Bool
  usage : Option Usage
deriving Repr, DecidableEq

/-- The guard of `publishWithOutcome` (part_014:101): the call reaches the
`once.Do` exactly when it is not filtered out — a nil usage is dropped
unless `failed`, and an all-zero usage is dropped unless `failed`. -/
def publishWithOutcomeQualifies (u : Option Usage) (failed : Bool) : Bool :=
  match u with
  | none => failed
  | some x =>
    failed || !(x.totalTokens == 0 && x.promptTokens == 0 && x.completionTokens == 0)

/-- The operations a caller can invoke on a `UsageReporter`
(part_014:17). -/
inductive ReporterOp where
  | publish (u : Option Usage)
  | publishFailure
  | trackFailure (err : Option GoError)
  | ensurePublished
deriving Repr, DecidableEq

/-- Whether an operation reaches the reporter's `once.Do`:
`Publish u` goes through `publishWithOutcome(u, false)`;
`PublishFailure` through `publishWithOutcome(nil, true)`;
`TrackFailure` calls `publishFailure` only on a non-nil non-user error;
`EnsurePublished` always reaches its `once.Do`. -/
def opQualifies : ReporterOp → Bool
  | .publish u => publishWithOutcomeQualifies u false
  | .publishFailure => publishWithOutcomeQualifies none true
  | .trackFailure err => err.isSome && !isUserError err
  | .ensurePublished => true

/-- The record an operation would publish (part_014:101, 127). -/
def opRecord : ReporterOp → UsageRecord
  | .publish u => ⟨false, u⟩
  | .publishFailure => ⟨true, none⟩
  | .trackFailure _ => ⟨true, none⟩
  | .ensurePublished => ⟨false, none⟩

/-- A sequence of reporter calls, threading the `sync.Once` state
(`onceDone`), returning the list of records handed to
`usage.PublishRecord`. -/
def runReporter : List ReporterOp → Bool → List UsageRecord
  | [], _ => []
  | op :: rest, onceDone =>
    if opQualifies op then
      if onceDone then runReporter rest onceDone
      else opRecord op :: runReporter rest true
    else
      runReporter rest onceDone

theorem runReporter_done (ops : List ReporterOp) : runReporter ops true = [] := by
  induction ops with
  | nil => rfl
  | cons op rest ih =>
    simp only [runReporter]
    split_ifs <;> exact ih

/-- C10: a `UsageReporter` publishes at most one usage record across any
sequence of `Publish`/`PublishFailure`/`TrackFailure`/`EnsurePublished`
calls; the first call that passes the guards determines the record and all
later calls are no-ops. -/
theorem usageReporter_publishes_at_most_once (ops : List ReporterOp) :
    runReporter ops false = ((ops.find? opQualifies).map opRecord).toList ∧
    (runReporter ops false).length ≤ 1 := by
  have main : runReporter ops false = ((ops.find? opQualifies).map opRecord).toList := by
    induction ops with
    | nil => rfl
    | cons op rest ih =>
      by_cases h : opQualifies op = true
      · simp [runReporter, h, List.find?_cons_of_pos, runReporter_done]
      · rw [List.find?_cons_of_neg _ (by simp [h])]
        simpa [runReporter, h] using ih
  refine ⟨main, ?_⟩
  rw [main]
  cases ops.find? opQualifies <;> simp

/-! ### C1 — auth selection (`src/unnamed/part_000`, `selectWithStrategy`) -/

/-- Embedding of `selectWithStrategy` (part_000:587).  The strategy's
`Score` reads only per-auth atomic state, so it is a pure function of the
auth here.  `sort.Slice` with `priority <` is modelled by `mergeSort` on
`priority ≤` (each produces a list sorted by priority; Go's sort breaks
ties in unspecified order, mergeSort stably).  `rand.Intn(similarCount)`,
which is uniform on `[0, similarCount)`, is modelled by the arbitrary draw
`r` reduced mod `similarCount`; theorems quantify over every `r`.  `none`
occurs only on an empty candidate list (the Go code indexes
`candidates[0]` and is called with nonempty lists only). -/
def selectWithStrategy {α : Type} (auths : List α) (score : α → Int) (r : Nat) : Option α :=
  let candidates := auths.map (fun a => (a, score a))
  match candidates.mergeSort (fun x y => decide (x.2 ≤ y.2)) with
  | [] => none
  | c0 :: rest =>
    let sorted := c0 :: rest
    let topN := min 3 sorted.length
    let minPriority := c0.2
    let similarCount := ((sorted.take topN).filter (fun c => decide (c.2 - minPriority < 100))).length
    if 1 < similarCount then
      (sorted.get? (r % similarCount)).map Prod.fst
    else
      some c0.1

theorem filter_length_get_of_pairwise {β : Type} (le : β → β → Bool) (P : β → Bool)
    (hdc : ∀ x y, le x y = true → P y = true → P x = true) :
    ∀ (l : List β), List.Pairwise (fun x y => le x y = true) l →
      ∀ (i : Nat) (hl : i < l.length), i < (l.filter P).length → P (l.get ⟨i, hl⟩) = true := by
  intro l
  induction l with
  | nil => intro _ i hl hfl; simp at hl
  | cons c restl ih =>
    intro hpw i hl hfl
    rcases List.pairwise_cons.mp hpw with ⟨hc, hrest⟩
    by_cases hPc : P c = true
    · cases i with
      | zero => simpa using hPc
      | succ j =>
        have hfl' : j < (restl.filter P).length := by
          have : (c :: restl).filter P = c :: restl.filter P := List.filter_cons_of_pos hPc
          rw [this] at hfl
          simpa using hfl
        have hl' : j < restl.length := by simpa using hl
        simpa using ih hrest j hl' hfl'
    · exfalso
      have hnone : restl.filter P = [] := by
        rw [List.filter_eq_nil_iff]
        intro y hy hPy
        exact hPc (hdc c y (hc y hy) hPy)
      have : (c :: restl).filter P = [] := by
        rw [List.filter_cons_of_neg (by simpa using hPc), hnone]
      rw [this] at hfl
      simp at hfl

/-- C1: when one candidate `a` beats every other candidate by more than
100 priority points (`score a + 100 < score b` for all `b ≠ a`),
`selectWithStrategy` returns `a` for every possible random draw — the
top-three randomization only ever chooses among candidates within 100 of
the best, and here that set is `a` alone. -/
theorem selectWithStrategy_no_tie {α : Type} (auths : List α) (score : α → Int)
    (a : α) (ha : a ∈ auths)
    (hgap : ∀ b ∈ auths, b ≠ a → score a + 100 < score b) (r : Nat) :
    selectWithStrategy auths score r = some a := by
  have htrans : ∀ x y z : α × Int,
      decide (x.2 ≤ y.2) = true → decide (y.2 ≤ z.2) = true → decide (x.2 ≤ z.2) = true := by
    intro x y z hxy hyz
    simp only [decide_eq_true_eq] at *
    omega
  have htotal : ∀ x y : α × Int, (decide (x.2 ≤ y.2) || decide (y.2 ≤ x.2)) = true := by
    intro x y
    simp only [Bool.or_eq_true, decide_eq_true_eq]
    omega
  have hperm := List.mergeSort_perm (auths.map (fun a => (a, score a)))
    (fun x y => decide (x.2 ≤ y.2))
  have hsorted := List.sorted_mergeSort htrans htotal (auths.map (fun a => (a, score a)))
  have hmem : ∀ p ∈ (auths.map (fun a => (a, score a))).mergeSort
      (fun x y => decide (x.2 ≤ y.2)), ∃ x ∈ auths, p = (x, score x) := by
    intro p hp
    have hp' : p ∈ auths.map (fun a => (a, score a)) := hperm.mem_iff.mp hp
    obtain ⟨x, hx, hxe⟩ := List.mem_map.mp hp'
    exact ⟨x, hx, hxe.symm⟩
  have hamem : (a, score a) ∈ (auths.map (fun a => (a, score a))).mergeSort
      (fun x y => decide (x.2 ≤ y.2)) :=
    hperm.mem_iff.mpr (List.mem_map_of_mem _ ha)
  obtain ⟨c0, rest, hsort⟩ : ∃ c0 rest, (auths.map (fun a => (a, score a))).mergeSort
      (fun x y => decide (x.2 ≤ y.2)) = c0 :: rest := by
    cases hq : (auths.map (fun a => (a, score a))).mergeSort (fun x y => decide (x.2 ≤ y.2)) with
    | nil => rw [hq] at hamem; simp at hamem
    | cons c0 rest => exact ⟨c0, rest, rfl⟩
  rw [hsort] at hperm hsorted hmem hamem
  simp only [selectWithStrategy]
  rw [hsort]
  dsimp only
  obtain ⟨x0, hx0, hc0eq⟩ := hmem c0 (List.mem_cons_self _ _)
  have hc0a : c0 = (a, score a) := by
    rcases eq_or_ne x0 a with h | h
    · rw [hc0eq, h]
    · exfalso
      have hgapx : score a + 100 < score x0 := hgap x0 hx0 h
      rcases List.mem_cons.mp hamem with heq | hmem2
      · rw [hc0eq] at heq
        exact h (congrArg Prod.fst heq).symm
      · have hle := (List.pairwise_cons.mp hsorted).1 _ hmem2
        rw [hc0eq] at hle
        simp only [decide_eq_true_eq] at hle
        omega
  have hkey : ∀ p ∈ c0 :: rest, decide (p.2 - c0.2 < 100) = true → p = (a, score a) := by
    intro p hp hPp
    obtain ⟨x, hx, hpe⟩ := hmem p hp
    rcases eq_or_ne x a with h | h
    · rw [hpe, h]
    · exfalso
      have hg := hgap x hx h
      have hlt : score x - score a < 100 := by
        rw [hc0a, hpe] at hPp
        simpa using hPp
      omega
  by_cases h1 : 1 <
      (((c0 :: rest).take (min 3 (c0 :: rest).length)).filter
        (fun c => decide (c.2 - c0.2 < 100))).length
  · rw [if_pos h1]
    set t := (c0 :: rest).take (min 3 (c0 :: rest).length) with ht
    set S := (t.filter (fun c => decide (c.2 - c0.2 < 100))).length with hS
    have hrs : r % S < S := Nat.mod_lt _ (by omega)
    have hSle : S ≤ t.length := by
      rw [hS]
      exact List.length_filter_le _ _
    have htlen : t.length ≤ (c0 :: rest).length := by
      rw [ht, List.length_take]
      omega
    have hidx : r % S < (c0 :: rest).length := by omega
    have hidxt : r % S < t.length := by omega
    have hget : (c0 :: rest).get? (r % S) = some ((c0 :: rest).get ⟨r % S, hidx⟩) :=
      List.get?_eq_get hidx
    rw [hget]
    have hpt : List.Pairwise (fun x y : α × Int => decide (x.2 ≤ y.2) = true) t :=
      hsorted.sublist (by rw [ht]; exact List.take_sublist _ _)
    have hPel : decide ((t.get ⟨r % S, hidxt⟩).2 - c0.2 < 100) = true := by
      refine filter_length_get_of_pairwise _ _ ?_ t hpt (r % S) hidxt (by rw [← hS]; exact hrs)
      intro x y hxy hPy
      simp only [decide_eq_true_eq] at *
      omega
    have hteq : t.get ⟨r % S, hidxt⟩ = (c0 :: rest).get ⟨r % S, hidx⟩ := by
      simp only [List.get_eq_getElem]
      exact List.getElem_take _
    rw [hteq] at hPel
    have hel := hkey _ (List.get_mem _ _ _) hPel
    rw [hel]
    rfl
  · rw [if_neg h1, hc0a]

/-- Witness for C1: candidate 1 scores 200 and the others 400 and 600,
each more than 100 above; every draw (here 7) selects candidate 1. -/
theorem selectWithStrategy_no_tie_witness :
    selectWithStrategy [1, 2, 3] (fun b : Nat => 200 * (b : Int)) 7 = some 1 :=
  selectWithStrategy_no_tie [1, 2, 3] (fun b : Nat => 200 * (b : Int)) 1
    (by decide) (by decide) 7

/-! ### C2 — undefined-placeholder scrub (`src/unnamed/part_015`) -/

/-- Go `strings.Contains` on character lists: does `needle` occur as a
contiguous substring of `hay`? -/
def containsSub : List Char → List Char → Bool
  | needle, [] => needle.isEmpty
  | needle, c :: rest => needle.isPrefixOf (c :: rest) || containsSub needle rest

mutual

/-- Whether the serialized payload contains the bytes `[undefined]`, i.e.
whether some object key or string value contains that substring (none of
its characters is JSON-escaped, and it cannot straddle JSON punctuation,
so the byte-level `strings.Contains` of part_015:14 reduces to this). -/
def containsUndefinedSub : Json → Bool
  | .null => false
  | .bool _ => false
  | .num _ => false
  | .str s => containsSub "[undefined]".data s.data
  | .arr items => containsUndefinedSubList items
  | .obj fields => containsUndefinedSubFields fields

/-- Array case of `containsUndefinedSub`. -/
def containsUndefinedSubList : List Json → Bool
  | [] => false
  | j :: rest => containsUndefinedSub j || containsUndefinedSubList rest

/-- Object case of `containsUndefinedSub`. -/
def containsUndefinedSubFields : List (String × Json) → Bool
  | [] => false
  | (k, v) :: rest =>
    containsSub "[undefined]".data k.data || containsUndefinedSub v ||
      containsUndefinedSubFields rest

end

mutual

/-- Embedding of `cleanUndefinedRecursive` (part_015:32).  `none` models
the Go `nil` interface, which callers elide.  A JSON `null` is the nil
interface in Go, so the default branch returns it as `nil`: nulls are
elided too.  An array is always kept: the Go code returns a `[]any` slice,
and a slice boxed in `any` is never the nil interface — when every item
was removed the surviving value is a nil slice, which the final
`json.Marshal` step writes as JSON `null` (standard Go marshalling; the
wrapper `internal/json` is not under `src/`), modelled by returning
`Json.null` for the emptied array. -/
def cleanUndefinedRecursive : Json → Option Json
  | .null => none
  | .bool b => some (.bool b)
  | .num r => some (.num r)
  | .str s => some (.str s)
  | .arr items =>
    let cleaned := cleanUndefinedList items
    some (if cleaned.isEmpty then .null else .arr cleaned)
  | .obj fields =>
    let cleaned := cleanUndefinedFields fields
    if cleaned.isEmpty then none else some (.obj cleaned)

/-- The `[]any` loop of `cleanUndefinedRecursive`: drop items equal to the
`"[undefined]"` string, recurse, keep non-nil results. -/
def cleanUndefinedList : List Json → List Json
  | [] => []
  | item :: rest =>
    if item = Json.str "[undefined]" then cleanUndefinedList rest
    else
      match cleanUndefinedRecursive item with
      | some c => c :: cleanUndefinedList rest
      | none => cleanUndefinedList rest

/-- The `map[string]any` loop of `cleanUndefinedRecursive`: drop entries
whose value is the `"[undefined]"` string, recurse, keep non-nil
results. -/
def cleanUndefinedFields : List (String × Json) → List (String × Json)
  | [] => []
  | (k, v) :: rest =>
    if v = Json.str "[undefined]" then cleanUndefinedFields rest
    else
      match cleanUndefinedRecursive v with
      | some c => (k, c) :: cleanUndefinedFields rest
      | none => cleanUndefinedFields rest

end

/-- Embedding of `SanitizeUndefinedValues` (part_015:13) at the
parsed-JSON level: the byte-level fast path `strings.Contains` is
`containsUndefinedSub`, the `IsObject`/`IsArray` guard is on the parsed
value, a `nil` cleaning result returns the original payload, and the final
`json.Marshal` (which cannot fail on these values) is the identity modulo
the nil-slice-to-null encoding already folded into
`cleanUndefinedRecursive`. -/
def SanitizeUndefinedValues (payload : Json) : Json :=
  if ¬ containsUndefinedSub payload then payload
  else if ¬ (payload.isObj || payload.isArr) then payload
  else
    match cleanUndefinedRecursive payload with
    | none => payload
    | some cleaned => cleaned

mutual

/-- No value anywhere in the payload is the string `"[undefined]"`. -/
def noUndefValue : Json → Bool
  | .null => true
  | .bool _ => true
  | .num _ => true
  | .str s => !(s == "[undefined]")
  | .arr items => noUndefValueList items
  | .obj fields => noUndefValueFields fields

/-- Array case of `noUndefValue`. -/
def noUndefValueList : List Json → Bool
  | [] => true
  | j :: rest => noUndefValue j && noUndefValueList rest

/-- Object case of `noUndefValue`. -/
def noUndefValueFields : List (String × Json) → Bool
  | [] => true
  | (_, v) :: rest => noUndefValue v && noUndefValueFields rest

end

mutual

/-- No empty object and no empty array occurs anywhere in the payload. -/
def noEmpties : Json → Bool
  | .null => true
  | .bool _ => true
  | .num _ => true
  | .str _ => true
  | .arr items => !items.isEmpty && noEmptiesList items
  | .obj fields => !fields.isEmpty && noEmptiesFields fields

/-- Array case of `noEmpties`. -/
def noEmptiesList : List Json → Bool
  | [] => true
  | j :: rest => noEmpties j && noEmptiesList rest

/-- Object case of `noEmpties`. -/
def noEmptiesFields : List (String × Json) → Bool
  | [] => true
  | (_, v) :: rest => noEmpties v && noEmptiesFields rest

end

mutual

/-- No JSON `null` occurs anywhere in the payload (including at top
level). -/
def noNull : Json → Bool
  | .null => false
  | .bool _ => true
  | .num _ => true
  | .str _ => true
  | .arr items => noNullList items
  | .obj fields => noNullFields fields

/-- Array case of `noNull`. -/
def noNullList : List Json → Bool
  | [] => true
  | j :: rest => noNull j && noNullList rest

/-- Object case of `noNull`. -/
def noNullFields : List (String × Json) → Bool
  | [] => true
  | (_, v) :: rest => noNull v && noNullFields rest

end

mutual

theorem cleanVal_noUndef : ∀ (j c : Json), j ≠ Json.str "[undefined]" →
    cleanUndefinedRecursive j = some c → noUndefValue c = true ∧ noEmpties c = true
  | .null, c, _, h => by simp [cleanUndefinedRecursive] at h
  | .bool b, c, _, h => by
      simp only [cleanUndefinedRecursive, Option.some.injEq] at h
      subst h
      exact ⟨rfl, rfl⟩
  | .num r, c, _, h => by
      simp only [cleanUndefinedRecursive, Option.some.injEq] at h
      subst h
      exact ⟨rfl, rfl⟩
  | .str s, c, hne, h => by
      simp only [cleanUndefinedRecursive, Option.some.injEq] at h
      subst h
      refine ⟨?_, rfl⟩
      simp only [noUndefValue, Bool.not_eq_eq_eq_not, Bool.not_true, beq_eq_false_iff_ne, ne_eq]
      intro hs
      exact hne (by rw [hs])
  | .arr items, c, _, h => by
      simp only [cleanUndefinedRecursive, Option.some.injEq] at h
      subst h
      by_cases he : (cleanUndefinedList items).isEmpty = true
      · rw [if_pos he]
        exact ⟨rfl, rfl⟩
      · rw [if_neg he]
        have he' : (cleanUndefinedList items).isEmpty = false := by
          cases hb : (cleanUndefinedList items).isEmpty
          · rfl
          · exact absurd hb he
        have hl := cleanList_noUndef items
        refine ⟨hl.1, ?_⟩
        simp only [noEmpties, he', Bool.not_false, Bool.true_and]
        exact hl.2
  | .obj fields, c, _, h => by
      simp only [cleanUndefinedRecursive] at h
      by_cases he : (cleanUndefinedFields fields).isEmpty = true
      · rw [if_pos he] at h
        exact absurd h (by simp)
      · rw [if_neg he] at h
        simp only [Option.some.injEq] at h
        subst h
        have hl := cleanFields_noUndef fields
        refine ⟨hl.1, ?_⟩
        simp only [noEmpties, Bool.not_eq_true] at he ⊢
        rw [he]
        simp only [Bool.not_false, Bool.true_and]
        exact hl.2

theorem cleanList_noUndef : ∀ items : List Json,
    noUndefValueList (cleanUndefinedList items) = true ∧
      noEmptiesList (cleanUndefinedList items) = true
  | [] => ⟨rfl, rfl⟩
  | item :: rest => by
      simp only [cleanUndefinedList]
      by_cases h : item = Json.str "[undefined]"
      · rw [if_pos h]
        exact cleanList_noUndef rest
      · rw [if_neg h]
        cases hc : cleanUndefinedRecursive item with
        | none => exact cleanList_noUndef rest
        | some c =>
          have hcv := cleanVal_noUndef item c h hc
          have hr := cleanList_noUndef rest
          refine ⟨?_, ?_⟩
          · simp only [noUndefValueList, hcv.1, hr.1, Bool.and_self]
          · simp only [noEmptiesList, hcv.2, hr.2, Bool.and_self]

theorem cleanFields_noUndef : ∀ fields : List (String × Json),
    noUndefValueFields (cleanUndefinedFields fields) = true ∧
      noEmptiesFields (cleanUndefinedFields fields) = true
  | [] => ⟨rfl, rfl⟩
  | (k, v) :: rest => by
      simp only [cleanUndefinedFields]
      by_cases h : v = Json.str "[undefined]"
      · rw [if_pos h]
        exact cleanFields_noUndef rest
      · rw [if_neg h]
        cases hc : cleanUndefinedRecursive v with
        | none => exact cleanFields_noUndef rest
        | some c =>
          have hcv := cleanVal_noUndef v c h hc
          have hr := cleanFields_noUndef rest
          refine ⟨?_, ?_⟩
          · simp only [noUndefValueFields, hcv.1, hr.1, Bool.and_self]
          · simp only [noEmptiesFields, hcv.2, hr.2, Bool.and_self]

end

mutual

theorem clean_fixed : ∀ j : Json, noUndefValue j = true → noEmpties j = true →
    noNull j = true → cleanUndefinedRecursive j = some j
  | .null, _, _, h3 => by simp [noNull] at h3
  | .bool b, _, _, _ => rfl
  | .num r, _, _, _ => rfl
  | .str s, _, _, _ => rfl
  | .arr items, h1, h2, h3 => by
      simp only [noUndefValue] at h1
      simp only [noEmpties, Bool.and_eq_true, Bool.not_eq_eq_eq_not, Bool.not_true] at h2
      simp only [noNull] at h3
      have hl := cleanList_fixed items h1 h2.2 h3
      simp only [cleanUndefinedRecursive, hl, h2.1, Bool.false_eq_true, if_false]
  | .obj fields, h1, h2, h3 => by
      simp only [noUndefValue] at h1
      simp only [noEmpties, Bool.and_eq_true, Bool.not_eq_eq_eq_not, Bool.not_true] at h2
      simp only [noNull] at h3
      have hl := cleanFields_fixed fields h1 h2.2 h3
      simp only [cleanUndefinedRecursive, hl, h2.1, Bool.false_eq_true, if_false]

theorem cleanList_fixed : ∀ items : List Json, noUndefValueList items = true →
    noEmptiesList items = true → noNullList items = true →
    cleanUndefinedList items = items
  | [] => fun _ _ _ => rfl
  | item :: rest => by
      intro h1 h2 h3
      simp only [noUndefValueList, Bool.and_eq_true] at h1
      simp only [noEmptiesList, Bool.and_eq_true] at h2
      simp only [noNullList, Bool.and_eq_true] at h3
      have hne : item ≠ Json.str "[undefined]" := by
        intro he
        rw [he] at h1
        simp [noUndefValue] at h1
      simp only [cleanUndefinedList, if_neg hne,
        clean_fixed item h1.1 h2.1 h3.1, cleanList_fixed rest h1.2 h2.2 h3.2]

theorem cleanFields_fixed : ∀ fields : List (String × Json),
    noUndefValueFields fields = true → noEmptiesFields fields = true →
    noNullFields fields = true → cleanUndefinedFields fields = fields
  | [] => fun _ _ _ => rfl
  | (k, v) :: rest => by
      intro h1 h2 h3
      simp only [noUndefValueFields, Bool.and_eq_true] at h1
      simp only [noEmptiesFields, Bool.and_eq_true] at h2
      simp only [noNullFields, Bool.and_eq_true] at h3
      have hne : v ≠ Json.str "[undefined]" := by
        intro he
        rw [he] at h1
        simp [noUndefValue] at h1
      simp only [cleanUndefinedFields, if_neg hne,
        clean_fixed v h1.1 h2.1 h3.1, cleanFields_fixed rest h1.2 h2.2 h3.2]

end

theorem scrub_spec (p : Json) :
    SanitizeUndefinedValues p = p ∨
      ∃ c, cleanUndefinedRecursive p = some c ∧
        (p.isObj = true ∨ p.isArr = true) ∧ SanitizeUndefinedValues p = c := by
  unfold SanitizeUndefinedValues
  by_cases h1 : containsUndefinedSub p = true
  · rw [if_neg (not_not_intro h1)]
    by_cases h2 : (p.isObj || p.isArr) = true
    · rw [if_neg (not_not_intro h2)]
      cases hc : cleanUndefinedRecursive p with
      | none => exact Or.inl rfl
      | some c => exact Or.inr ⟨c, rfl, Bool.or_eq_true_iff.mp h2, rfl⟩
    · rw [if_pos h2]
      exact Or.inl rfl
  · rw [if_pos h1]
    exact Or.inl rfl

theorem cleanTop_shape (p c : Json) (hp : p.isObj = true ∨ p.isArr = true)
    (h : cleanUndefinedRecursive p = some c) :
    c.isObj = true ∨ c.isArr = true ∨ c = Json.null := by
  cases p with
  | obj fields =>
    simp only [cleanUndefinedRecursive] at h
    by_cases he : (cleanUndefinedFields fields).isEmpty = true
    · rw [if_pos he] at h
      exact absurd h (by simp)
    · rw [if_neg he] at h
      simp only [Option.some.injEq] at h
      subst h
      exact Or.inl rfl
  | arr items =>
    simp only [cleanUndefinedRecursive, Option.some.injEq] at h
    subst h
    by_cases he : (cleanUndefinedList items).isEmpty = true
    · rw [if_pos he]
      exact Or.inr (Or.inr rfl)
    · rw [if_neg he]
      exact Or.inr (Or.inl rfl)
  | null => simp [Json.isObj, Json.isArr] at hp
  | bool b => simp [Json.isObj, Json.isArr] at hp
  | num r => simp [Json.isObj, Json.isArr] at hp
  | str s => simp [Json.isObj, Json.isArr] at hp

theorem cleanTop_noUndef (p c : Json) (hp : p.isObj = true ∨ p.isArr = true)
    (h : cleanUndefinedRecursive p = some c) :
    noUndefValue c = true ∧ noEmpties c = true := by
  refine cleanVal_noUndef p c ?_ h
  intro he
  rw [he] at hp
  simp [Json.isObj, Json.isArr] at hp

/-- C2 counterexample: the scrub is neither clean nor idempotent as
claimed.  (1) When the scrub empties the whole payload,
`SanitizeUndefinedValues` returns the original payload, whose `a` value is
still the literal `"[undefined]"`.  (2) An array emptied by the scrub is
kept as a nil slice (a `[]any` boxed in `any` is never the nil interface),
which marshals as JSON `null`; if a residual `[undefined]` substring keeps
the fast path open, a second scrub then elides that `null`, so
`scrub(scrub(p)) ≠ scrub(p)`. -/
theorem SanitizeUndefinedValues_not_clean :
    SanitizeUndefinedValues (Json.obj [("a", Json.str "[undefined]")]) =
      Json.obj [("a", Json.str "[undefined]")] ∧
    noUndefValue (SanitizeUndefinedValues (Json.obj [("a", Json.str "[undefined]")])) = false ∧
    SanitizeUndefinedValues (SanitizeUndefinedValues
        (Json.obj [("a", Json.arr [Json.str "[undefined]"]), ("s", Json.str "x[undefined]")])) ≠
      SanitizeUndefinedValues
        (Json.obj [("a", Json.arr [Json.str "[undefined]"]), ("s", Json.str "x[undefined]")]) := by
  refine ⟨by decide, by decide, by decide⟩

/-- C2 (amended): the scrub output contains no `"[undefined]"` value
except when the scrub would elide the entire payload, in which case the
original payload is returned unchanged (and re-scrubbing it is then
trivially stable).  The scrub is idempotent on every payload whose output
contains no JSON `null` or no residual `[undefined]` substring (arrays
emptied by the scrub survive as `null` and are elided only by a later
pass).  Objects emptied by the scrub are themselves elided, and arrays
emptied by the scrub become `null`. -/
theorem SanitizeUndefinedValues_amended :
    (∀ p : Json,
      noUndefValue (SanitizeUndefinedValues p) = true ∨ SanitizeUndefinedValues p = p) ∧
    (∀ p : Json,
      (noNull (SanitizeUndefinedValues p) = true ∨
        containsUndefinedSub (SanitizeUndefinedValues p) = false) →
      SanitizeUndefinedValues (SanitizeUndefinedValues p) = SanitizeUndefinedValues p) ∧
    (∀ fields : List (String × Json),
      cleanUndefinedRecursive (Json.obj fields) = none ↔ cleanUndefinedFields fields = []) ∧
    (∀ items : List Json, cleanUndefinedList items = [] →
      cleanUndefinedRecursive (Json.arr items) = some Json.null) := by
  refine ⟨?_, ?_, ?_, ?_⟩
  · intro p
    rcases scrub_spec p with h | ⟨c, hc, hp, hs⟩
    · exact Or.inr h
    · rw [hs]
      exact Or.inl (cleanTop_noUndef p c hp hc).1
  · intro p hyp
    rcases scrub_spec p with h | ⟨c, hc, hp, hs⟩
    · rw [h]
      exact h
    · rw [hs] at hyp ⊢
      by_cases hcc : containsUndefinedSub c = true
      · have hnn : noNull c = true := by
          rcases hyp with h | h
          · exact h
          · rw [hcc] at h
            exact absurd h (by simp)
        have hshape2 : (c.isObj || c.isArr) = true := by
          rcases cleanTop_shape p c hp hc with h | h | h
          · simp [h]
          · simp [h]
          · rw [h] at hnn
            exact absurd hnn (by simp [noNull])
        have hn := cleanTop_noUndef p c hp hc
        have hfix : cleanUndefinedRecursive c = some c := clean_fixed c hn.1 hn.2 hnn
        unfold SanitizeUndefinedValues
        rw [if_neg (not_not_intro hcc), if_neg (not_not_intro hshape2), hfix]
      · unfold SanitizeUndefinedValues
        rw [if_pos hcc]
  · intro fields
    simp only [cleanUndefinedRecursive]
    by_cases he : (cleanUndefinedFields fields).isEmpty = true
    · rw [if_pos he]
      rw [List.isEmpty_iff] at he
      simp [he]
    · rw [if_neg he]
      have hne : cleanUndefinedFields fields ≠ [] := by
        intro h0
        rw [h0] at he
        exact he rfl
      simp [hne]
  · intro items h
    simp [cleanUndefinedRecursive, h]

/-- Witness for C2 at a payload with one placeholder and one surviving
field: the scrub output is stable under a second scrub. -/
theorem SanitizeUndefinedValues_amended_witness :
    SanitizeUndefinedValues (SanitizeUndefinedValues
        (Json.obj [("a", Json.str "[undefined]"), ("b", Json.num "1")])) =
      SanitizeUndefinedValues (Json.obj [("a", Json.str "[undefined]"), ("b", Json.num "1")]) :=
  SanitizeUndefinedValues_amended.2.1 _ (Or.inr (by decide))

/-! ### C7 — model-name glob matching (`src/unnamed/part_014`, `MatchModelPattern`) -/

/-- The trailing loop of `MatchModelPattern` (part_014:391): skip stars at
`pi` and require the end of the pattern — i.e. every remaining pattern
character is a `*`. -/
def allStars : List Char → Bool
  | [] => true
  | c :: rest => c == '*' && allStars rest

/-- The wildcard state machine of `MatchModelPattern` (part_014:368),
on character lists.  `pi`/`si` are the pattern and model cursors, `star`
is `starIdx` (`none` for the Go `-1`) and `mi` is `matchIdx`.  Go's loop
maintains `matchIdx ≤ si`; that invariant is threaded as the proof
argument `h`, used only for termination. -/
def wildLoop (p m : List Char) (pi si : Nat) (star : Option Nat) (mi : Nat)
    (h : mi ≤ si) : Bool :=
  if hsi : si < m.length then
    if hmatch : pi < p.length ∧ p.get? pi = m.get? si then
      wildLoop p m (pi + 1) (si + 1) star mi (by omega)
    else if hstar : pi < p.length ∧ p.get? pi = some '*' then
      wildLoop p m (pi + 1) si (some pi) si (le_refl si)
    else
      match star with
      | some k => wildLoop p m (k + 1) (mi + 1) (some k) (mi + 1) (le_refl _)
      | none => false
  else
    allStars (p.drop pi)
termination_by (m.length - mi, m.length - si, p.length - pi)
decreasing_by
  · apply Prod.Lex.right
    apply Prod.Lex.left
    omega
  · rcases Nat.lt_or_ge mi si with hlt | hge
    · apply Prod.Lex.left
      omega
    · have heq : si = mi := by omega
      subst heq
      apply Prod.Lex.right
      apply Prod.Lex.right
      omega
  · apply Prod.Lex.left
    omega

theorem wildLoop_exit (p m : List Char) (pi si : Nat) (star : Option Nat) (mi : Nat)
    (h : mi ≤ si) (hsi : ¬ si < m.length) :
    wildLoop p m pi si star mi h = allStars (p.drop pi) := by
  conv_lhs => rw [wildLoop.eq_def]
  rw [dif_neg hsi]

theorem wildLoop_char (p m : List Char) (pi si : Nat) (star : Option Nat) (mi : Nat)
    (h : mi ≤ si) (h' : mi ≤ si + 1) (hsi : si < m.length)
    (hm : pi < p.length ∧ p.get? pi = m.get? si) :
    wildLoop p m pi si star mi h = wildLoop p m (pi + 1) (si + 1) star mi h' := by
  conv_lhs => rw [wildLoop.eq_def]
  rw [dif_pos hsi, dif_pos hm]

theorem wildLoop_star (p m : List Char) (pi si : Nat) (star : Option Nat) (mi : Nat)
    (h : mi ≤ si) (hsi : si < m.length)
    (hm : ¬(pi < p.length ∧ p.get? pi = m.get? si))
    (hs : pi < p.length ∧ p.get? pi = some '*') :
    wildLoop p m pi si star mi h = wildLoop p m (pi + 1) si (some pi) si (le_refl si) := by
  conv_lhs => rw [wildLoop.eq_def]
  rw [dif_pos hsi, dif_neg hm, dif_pos hs]

theorem wildLoop_back (p m : List Char) (pi si : Nat) (k mi : Nat)
    (h : mi ≤ si) (hsi : si < m.length)
    (hm : ¬(pi < p.length ∧ p.get? pi = m.get? si))
    (hs : ¬(pi < p.length ∧ p.get? pi = some '*')) :
    wildLoop p m pi si (some k) mi h =
      wildLoop p m (k + 1) (mi + 1) (some k) (mi + 1) (le_refl _) := by
  conv_lhs => rw [wildLoop.eq_def]
  rw [dif_pos hsi, dif_neg hm, dif_neg hs]

theorem wildLoop_dead (p m : List Char) (pi si : Nat) (mi : Nat)
    (h : mi ≤ si) (hsi : si < m.length)
    (hm : ¬(pi < p.length ∧ p.get? pi = m.get? si))
    (hs : ¬(pi < p.length ∧ p.get? pi = some '*')) :
    wildLoop p m pi si none mi h = false := by
  conv_lhs => rw [wildLoop.eq_def]
  rw [dif_pos hsi, dif_neg hm, dif_neg hs]

/-- Go `strings.TrimSpace` on a character list: drop whitespace from both
ends. -/
def trimSpace (s : List Char) : List Char :=
  ((s.dropWhile Char.isWhitespace).reverse.dropWhile Char.isWhitespace).reverse

/-- Embedding of `MatchModelPattern` (part_014:357): trim both strings,
reject the empty pattern, accept the bare `*`, otherwise run the wildcard
state machine.  The Go code walks bytes, which on model names and patterns
coincides with characters. -/
def MatchModelPattern (pattern model : String) : Bool :=
  let p := trimSpace pattern.data
  let m := trimSpace model.data
  if p.isEmpty then false
  else if p = ['*'] then true
  else wildLoop p m 0 0 none 0 (le_refl 0)

/-! ### C8 — configuration overlays (`src/unnamed/part_014`,
`ApplyPayloadConfigWithRoot`)

JSON paths are modelled as key lists (the dot-separated `gjson`/`sjson`
key paths the configuration uses); `buildPayloadPath`'s string
concatenation with `.` is list append.  `sjson.SetBytes` creates missing
intermediate objects and replaces non-object values on the way, which
`Json.setPath` mirrors; its error return (impossible for plain key paths)
is not modelled. -/

/-- `gjson.GetBytes(out, path).Exists()` for a key path: descend objects
key by key. -/
def Json.getPath : Json → List String → Option Json
  | j, [] => some j
  | j, k :: rest =>
    match j.getKey k with
    | some child => child.getPath rest
    | none => none

/-- Replace the value under key `k`, or append the binding. -/
def setKey : List (String × Json) → String → Json → List (String × Json)
  | [], k, v => [(k, v)]
  | (k', v') :: rest, k, v =>
    if k' == k then (k, v) :: rest else (k', v') :: setKey rest k v

/-- The nested single-key objects `sjson` creates below a missing key. -/
def buildPath : List String → Json → Json
  | [], v => v
  | k :: rest, v => .obj [(k, buildPath rest v)]

/-- `sjson.SetBytes` for a key path: descend, creating objects for missing
keys and replacing non-object values. -/
def Json.setPath : Json → List String → Json → Json
  | _, [], v => v
  | j, k :: rest, v =>
    let fields := match j with
      | .obj f => f
      | _ => []
    match fields.find? (fun kv => kv.1 == k) with
    | some kv => .obj (setKey fields k (Json.setPath kv.2 rest v))
    | none => .obj (fields ++ [(k, buildPath rest v)])

/-- One `rule.Models` entry (`config.PayloadRule`): glob-patterned model
name and optional protocol tag. -/
structure PayloadModelEntry where
  name : String
  protocol : String
deriving Repr, DecidableEq

/-- One payload rule: model matchers and the `Params` path → value map
(a Go map; modelled as a list in the iteration order of one run). -/
structure PayloadRule where
  models : List PayloadModelEntry
  params : List (List String × Json)

/-- The `cfg.Payload` rules: `Default` (set only if absent) and
`Override` (always set). -/
structure PayloadRules where
  defaults : List PayloadRule
  overrides : List PayloadRule

/-- Go `strings.EqualFold`, modelled as case-insensitive comparison via
`toLower` (protocol tags are ASCII). -/
def equalFold (a b : String) : Bool :=
  a.toLower == b.toLower

/-- Embedding of `payloadRuleMatchesModel` (part_014:324): some entry has
a nonempty trimmed name, a protocol tag that is absent or case-folds equal
to the request protocol (when both are nonempty), and a glob match on the
model. -/
def payloadRuleMatchesModel (rule : PayloadRule) (model protocol : String) : Bool :=
  if rule.models.isEmpty then false
  else rule.models.any (fun entry =>
    let name := trimSpace entry.name.data
    let ep := trimSpace entry.protocol.data
    if name.isEmpty then false
    else if ¬ep.isEmpty ∧ protocol ≠ "" ∧ equalFold (String.mk ep) protocol = false then false
    else MatchModelPattern (String.mk name) model)

/-- Embedding of `buildPayloadPath` (part_014:345) at the key-list level:
concatenation (its empty-side special cases are absorbed by list
append). -/
def buildPayloadPath (root path : List String) : List String :=
  root ++ path

/-- One `Default` rule parameter applied to the payload (part_014:286):
skip an empty full path, skip when the path already exists, set
otherwise. -/
def applyDefaultEntry (root : List String) (out : Json) (e : List String × Json) : Json :=
  let fp := buildPayloadPath root e.1
  if fp.isEmpty then out
  else if (out.getPath fp).isSome then out
  else out.setPath fp e.2

/-- One `Override` rule parameter applied to the payload (part_014:305):
skip an empty full path, always set otherwise. -/
def applyOverrideEntry (root : List String) (out : Json) (e : List String × Json) : Json :=
  let fp := buildPayloadPath root e.1
  if fp.isEmpty then out
  else out.setPath fp e.2

/-- Embedding of `ApplyPayloadConfigWithRoot` (part_014:267): after the
no-rules and empty-model guards, apply every matching `Default` rule's
parameters (set-if-absent), then every matching `Override` rule's
parameters (always set).  The `cfg == nil` and empty-payload-bytes guards
return the payload unchanged and are not modelled. -/
def ApplyPayloadConfigWithRoot (rules : PayloadRules) (model protocol : String)
    (root : List String) (payload : Json) : Json :=
  if rules.defaults.isEmpty ∧ rules.overrides.isEmpty then payload
  else if (trimSpace model.data).isEmpty then payload
  else
    let mt := String.mk (trimSpace model.data)
    let afterDefaults := rules.defaults.foldl
      (fun out rule =>
        if payloadRuleMatchesModel rule mt protocol then
          rule.params.foldl (applyDefaultEntry root) out
        else out) payload
    rules.overrides.foldl
      (fun out rule =>
        if payloadRuleMatchesModel rule mt protocol then
          rule.params.foldl (applyOverrideEntry root) out
        else out) afterDefaults

/-- The parameters of the rules that match, in application order. -/
def matchedParams (rules : List PayloadRule) (mt protocol : String) :
    List (List String × Json) :=
  (rules.filter (fun r => payloadRuleMatchesModel r mt protocol)).foldr
    (fun r acc => r.params ++ acc) []

theorem find?_setKey_same (fields : List (String × Json)) (k : String) (v : Json) :
    (setKey fields k v).find? (fun kv => kv.1 == k) = some (k, v) := by
  induction fields with
  | nil => simp [setKey, List.find?]
  | cons hd rest ih =>
    obtain ⟨k', v'⟩ := hd
    by_cases h : (k' == k) = true
    · simp [setKey, h, List.find?]
    · have hf : (k' == k) = false := by simpa using h
      simp [setKey, hf, List.find?, ih]

theorem find?_setKey_other (fields : List (String × Json)) (k k' : String) (v : Json)
    (hne : k' ≠ k) :
    (setKey fields k v).find? (fun kv => kv.1 == k') =
      fields.find? (fun kv => kv.1 == k') := by
  have hkk : (k == k') = false := beq_eq_false_iff_ne.mpr (fun h => hne h.symm)
  induction fields with
  | nil => simp [setKey, List.find?, hkk]
  | cons hd rest ih =>
    obtain ⟨a, b⟩ := hd
    by_cases h : (a == k) = true
    · have ha : a = k := by simpa using h
      subst ha
      simp [setKey, List.find?, hkk]
    · have hf : (a == k) = false := by simpa using h
      by_cases h2 : (a == k') = true
      · simp [setKey, hf, List.find?, h2]
      · have hf2 : (a == k') = false := by simpa using h2
        simp [setKey, hf, List.find?, hf2, ih]

theorem getPath_append (j : Json) (a b : List String) :
    j.getPath (a ++ b) = (j.getPath a).bind (fun x => x.getPath b) := by
  induction a generalizing j with
  | nil => simp [Json.getPath]
  | cons k rest ih =>
    simp only [List.cons_append, Json.getPath]
    cases h : j.getKey k with
    | none => rfl
    | some child => exact ih child

theorem getPath_isSome_of_pfx (j : Json) (a q : List String) (w : Json)
    (hpre : a <+: q) (h : j.getPath q = some w) : (j.getPath a).isSome = true := by
  obtain ⟨b, rfl⟩ := hpre
  rw [getPath_append] at h
  cases ha : j.getPath a with
  | none => rw [ha] at h; simp at h
  | some x => rfl

theorem getPath_buildPath (rest : List String) (v : Json) :
    (buildPath rest v).getPath rest = some v := by
  induction rest with
  | nil => rfl
  | cons k r ih => simpa [buildPath, Json.getPath, Json.getKey, List.find?] using ih

theorem getPath_buildPath_stray (q x : List String) (v : Json)
    (h1 : ¬ q <+: x) (h2 : ¬ x <+: q) : (buildPath q v).getPath x = none := by
  induction q generalizing x with
  | nil => exact absurd List.nil_prefix h1
  | cons a q' ih =>
    cases x with
    | nil => exact absurd List.nil_prefix h2
    | cons b x' =>
      by_cases hab : b = a
      · subst hab
        have h1' : ¬ q' <+: x' := fun hp => h1 (List.cons_prefix_cons.mpr ⟨rfl, hp⟩)
        have h2' : ¬ x' <+: q' := fun hp => h2 (List.cons_prefix_cons.mpr ⟨rfl, hp⟩)
        simpa [buildPath, Json.getPath, Json.getKey, List.find?] using ih x' h1' h2'
      · have hf : (a == b) = false := beq_eq_false_iff_ne.mpr (fun hh => hab hh.symm)
        simp [buildPath, Json.getPath, Json.getKey, List.find?, hf]

theorem getPath_setPath_self (j : Json) (q : List String) (v : Json) :
    (j.setPath q v).getPath q = some v := by
  induction q generalizing j with
  | nil => rfl
  | cons k rest ih =>
    have hnone : ∀ fields : List (String × Json),
        fields.find? (fun kv => kv.1 == k) = none →
        (Json.obj (fields ++ [(k, buildPath rest v)])).getPath (k :: rest) = some v := by
      intro fields hf
      simp only [Json.getPath, Json.getKey, List.find?_append, hf, Option.none_or]
      simpa [List.find?] using getPath_buildPath rest v
    have hsome : ∀ (fields : List (String × Json)) (kv : String × Json),
        (Json.obj (setKey fields k (Json.setPath kv.2 rest v))).getPath (k :: rest) = some v := by
      intro fields kv
      simp only [Json.getPath, Json.getKey, find?_setKey_same, Option.map_some]
      exact ih kv.2
    cases j with
    | obj fields =>
      simp only [Json.setPath]
      cases hf : fields.find? (fun kv => kv.1 == k) with
      | some kv => exact hsome fields kv
      | none => exact hnone fields hf
    | null => exact hnone [] rfl
    | bool b => exact hnone [] rfl
    | num r => exact hnone [] rfl
    | str s => exact hnone [] rfl
    | arr items => exact hnone [] rfl

theorem getPath_setPath_incomp (j : Json) (q x : List String) (v : Json)
    (h1 : ¬ q <+: x) (h2 : ¬ x <+: q) : (j.setPath q v).getPath x = j.getPath x := by
  induction q generalizing j x with
  | nil => exact absurd List.nil_prefix h1
  | cons k q' ih =>
    cases x with
    | nil => exact absurd List.nil_prefix h2
    | cons kx x' =>
      by_cases hk : kx = k
      · subst hk
        have h1' : ¬ q' <+: x' := fun hp => h1 (List.cons_prefix_cons.mpr ⟨rfl, hp⟩)
        have h2' : ¬ x' <+: q' := fun hp => h2 (List.cons_prefix_cons.mpr ⟨rfl, hp⟩)
        have hnone2 : ∀ fields : List (String × Json),
            fields.find? (fun kv => kv.1 == kx) = none →
            (Json.obj (fields ++ [(kx, buildPath q' v)])).getPath (kx :: x') = none := by
          intro fields hf
          simp only [Json.getPath, Json.getKey, List.find?_append, hf, Option.none_or]
          simpa [List.find?] using getPath_buildPath_stray q' x' v h1' h2'
        cases j with
        | obj fields =>
          simp only [Json.setPath]
          cases hf : fields.find? (fun kv => kv.1 == kx) with
          | some kv =>
            simp only [Json.getPath, Json.getKey, find?_setKey_same, Option.map_some, hf]
            exact ih kv.2 x' h1' h2'
          | none =>
            rw [hnone2 fields hf]
            simp [Json.getPath, Json.getKey, hf]
        | null => exact hnone2 [] rfl
        | bool b => exact hnone2 [] rfl
        | num r => exact hnone2 [] rfl
        | str s => exact hnone2 [] rfl
        | arr items => exact hnone2 [] rfl
      · have hfx : (k == kx) = false := beq_eq_false_iff_ne.mpr (fun hh => hk hh.symm)
        have hnone3 : (Json.obj (([] : List (String × Json)) ++ [(k, buildPath q' v)])).getPath
            (kx :: x') = none := by
          simp [Json.getPath, Json.getKey, List.find?, hfx]
        cases j with
        | obj fields =>
          simp only [Json.setPath]
          cases hf : fields.find? (fun kv => kv.1 == k) with
          | some kv =>
            simp only [Json.getPath, Json.getKey, find?_setKey_other fields k kx _ hk]
          | none =>
            simp only [Json.getPath, Json.getKey, List.find?_append, List.find?, hfx,
              Option.or_none]
        | null => exact hnone3
        | bool b => exact hnone3
        | num r => exact hnone3
        | str s => exact hnone3
        | arr items => exact hnone3

theorem foldl_rules_eq_matched (rules : List PayloadRule) (mt protocol : String)
    (g : Json → List String × Json → Json) (init : Json) :
    rules.foldl (fun out rule =>
        if payloadRuleMatchesModel rule mt protocol then rule.params.foldl g out else out) init =
      (matchedParams rules mt protocol).foldl g init := by
  induction rules generalizing init with
  | nil => rfl
  | cons r rest ih =>
    by_cases h : payloadRuleMatchesModel r mt protocol = true
    · simp only [List.foldl_cons, if_pos h, matchedParams, List.filter_cons, h, if_true,
        List.foldr_cons, List.foldl_append]
      exact ih _
    · have hf : payloadRuleMatchesModel r mt protocol = false := by simpa using h
      simp only [List.foldl_cons, if_neg h, matchedParams, List.filter_cons, hf,
        Bool.false_eq_true, if_false]
      exact ih init

theorem foldDefault_frame (root : List String) (es : List (List String × Json)) (out : Json)
    (q : List String)
    (h : ∀ e ∈ es, root ++ e.1 ≠ [] → ¬(root ++ e.1 <+: q) ∧ ¬(q <+: root ++ e.1)) :
    (es.foldl (applyDefaultEntry root) out).getPath q = out.getPath q := by
  induction es generalizing out with
  | nil => rfl
  | cons e rest ih =>
    have hstep : (applyDefaultEntry root out e).getPath q = out.getPath q := by
      simp only [applyDefaultEntry, buildPayloadPath]
      split_ifs with hfp hex
      · rfl
      · rfl
      · have hne : root ++ e.1 ≠ [] := by
          intro h0
          rw [h0] at hfp
          exact hfp rfl
        have hc := h e (List.mem_cons_self e rest) hne
        exact getPath_setPath_incomp out _ q e.2 hc.1 hc.2
    rw [List.foldl_cons, ih _ (fun e' he' => h e' (List.mem_cons_of_mem e he')), hstep]

theorem foldOverride_frame (root : List String) (es : List (List String × Json)) (out : Json)
    (q : List String)
    (h : ∀ e ∈ es, root ++ e.1 ≠ [] → ¬(root ++ e.1 <+: q) ∧ ¬(q <+: root ++ e.1)) :
    (es.foldl (applyOverrideEntry root) out).getPath q = out.getPath q := by
  induction es generalizing out with
  | nil => rfl
  | cons e rest ih =>
    have hstep : (applyOverrideEntry root out e).getPath q = out.getPath q := by
      simp only [applyOverrideEntry, buildPayloadPath]
      split_ifs with hfp
      · rfl
      · have hne : root ++ e.1 ≠ [] := by
          intro h0
          rw [h0] at hfp
          exact hfp rfl
        have hc := h e (List.mem_cons_self e rest) hne
        exact getPath_setPath_incomp out _ q e.2 hc.1 hc.2
    rw [List.foldl_cons, ih _ (fun e' he' => h e' (List.mem_cons_of_mem e he')), hstep]

theorem foldDefault_keep (root : List String) (es : List (List String × Json)) (out : Json)
    (q : List String) (w : Json) (hq : out.getPath q = some w)
    (h : ∀ e ∈ es, root ++ e.1 ≠ [] → q <+: root ++ e.1 → root ++ e.1 = q) :
    (es.foldl (applyDefaultEntry root) out).getPath q = some w := by
  induction es generalizing out with
  | nil => exact hq
  | cons e rest ih =>
    have hstep : (applyDefaultEntry root out e).getPath q = some w := by
      simp only [applyDefaultEntry, buildPayloadPath]
      split_ifs with hfp hex
      · exact hq
      · exact hq
      · have hne : root ++ e.1 ≠ [] := by
          intro h0
          rw [h0] at hfp
          exact hfp rfl
        have hnp : ¬(root ++ e.1 <+: q) := by
          intro hp
          exact hex (getPath_isSome_of_pfx out _ q w hp hq)
        have hnp2 : ¬(q <+: root ++ e.1) := by
          intro hp
          have heq := h e (List.mem_cons_self e rest) hne hp
          exact hnp (heq ▸ List.prefix_refl _)
        rw [getPath_setPath_incomp out _ q e.2 hnp hnp2]
        exact hq
    exact ih _ hstep (fun e' he' => h e' (List.mem_cons_of_mem e he'))

theorem foldOverride_keep (root : List String) (es : List (List String × Json)) (out : Json)
    (q : List String) (v : Json) (hq : out.getPath q = some v)
    (h : ∀ e ∈ es, root ++ e.1 ≠ [] → (root ++ e.1 <+: q ∨ q <+: root ++ e.1) →
      root ++ e.1 = q ∧ e.2 = v) :
    (es.foldl (applyOverrideEntry root) out).getPath q = some v := by
  induction es generalizing out with
  | nil => exact hq
  | cons e rest ih =>
    have hstep : (applyOverrideEntry root out e).getPath q = some v := by
      simp only [applyOverrideEntry, buildPayloadPath]
      split_ifs with hfp
      · exact hq
      · have hne : root ++ e.1 ≠ [] := by
          intro h0
          rw [h0] at hfp
          exact hfp rfl
        by_cases hcomp : (root ++ e.1 <+: q) ∨ (q <+: root ++ e.1)
        · obtain ⟨hfq, hv⟩ := h e (List.mem_cons_self e rest) hne hcomp
          rw [hfq, hv]
          exact getPath_setPath_self out q v
        · rw [not_or] at hcomp
          rw [getPath_setPath_incomp out _ q e.2 hcomp.1 hcomp.2]
          exact hq
    exact ih _ hstep (fun e' he' => h e' (List.mem_cons_of_mem e he'))

theorem foldOverride_estab (root : List String) (es : List (List String × Json)) (out : Json)
    (q : List String) (v : Json) (hqne : q ≠ [])
    (hex : ∃ e ∈ es, root ++ e.1 = q ∧ e.2 = v)
    (h : ∀ e ∈ es, root ++ e.1 ≠ [] → (root ++ e.1 <+: q ∨ q <+: root ++ e.1) →
      root ++ e.1 = q ∧ e.2 = v) :
    (es.foldl (applyOverrideEntry root) out).getPath q = some v := by
  induction es generalizing out with
  | nil =>
    obtain ⟨e, he, -⟩ := hex
    exact absurd he (List.not_mem_nil e)
  | cons e rest ih =>
    by_cases hcomp : root ++ e.1 ≠ [] ∧ ((root ++ e.1 <+: q) ∨ (q <+: root ++ e.1))
    · obtain ⟨hfq, hv⟩ := h e (List.mem_cons_self e rest) hcomp.1 hcomp.2
      have hstep : (applyOverrideEntry root out e).getPath q = some v := by
        simp only [applyOverrideEntry, buildPayloadPath]
        rw [if_neg (by
          intro h0
          exact hcomp.1 (List.isEmpty_iff.mp h0))]
        rw [hfq, hv]
        exact getPath_setPath_self out q v
      exact foldOverride_keep root rest _ q v hstep
        (fun e' he' => h e' (List.mem_cons_of_mem e he'))
    · have hex' : ∃ e' ∈ rest, root ++ e'.1 = q ∧ e'.2 = v := by
        obtain ⟨e', he', hp, hv⟩ := hex
        rcases List.mem_cons.mp he' with rfl | hmem
        · exact absurd ⟨hp ▸ hqne, Or.inl (hp ▸ List.prefix_refl _)⟩ hcomp
        · exact ⟨e', hmem, hp, hv⟩
      rw [List.foldl_cons]
      exact ih _ hex' (fun e' he' => h e' (List.mem_cons_of_mem e he'))

theorem foldDefault_estab (root : List String) (es : List (List String × Json)) (out : Json)
    (q : List String) (v : Json) (hqne : q ≠ []) (hq : out.getPath q = none)
    (hex : ∃ e ∈ es, root ++ e.1 = q ∧ e.2 = v)
    (h : ∀ e ∈ es, root ++ e.1 ≠ [] → (root ++ e.1 <+: q ∨ q <+: root ++ e.1) →
      root ++ e.1 = q ∧ e.2 = v) :
    (es.foldl (applyDefaultEntry root) out).getPath q = some v := by
  induction es generalizing out with
  | nil =>
    obtain ⟨e, he, -⟩ := hex
    exact absurd he (List.not_mem_nil e)
  | cons e rest ih =>
    by_cases hcomp : root ++ e.1 ≠ [] ∧ ((root ++ e.1 <+: q) ∨ (q <+: root ++ e.1))
    · obtain ⟨hfq, hv⟩ := h e (List.mem_cons_self e rest) hcomp.1 hcomp.2
      have hstep : (applyDefaultEntry root out e).getPath q = some v := by
        simp only [applyDefaultEntry, buildPayloadPath]
        rw [if_neg (by
          intro h0
          exact hcomp.1 (List.isEmpty_iff.mp h0))]
        rw [hfq]
        rw [if_neg (by rw [hq]; simp)]
        rw [hv]
        exact getPath_setPath_self out q v
      refine foldDefault_keep root rest _ q v hstep (fun e' he' hne' hp => ?_)
      exact (h e' (List.mem_cons_of_mem e he') hne' (Or.inr hp)).1
    · have hstep : (applyDefaultEntry root out e).getPath q = none := by
        simp only [applyDefaultEntry, buildPayloadPath]
        split_ifs with hfp hex2
        · exact hq
        · exact hq
        · have hne : root ++ e.1 ≠ [] := by
            intro h0
            rw [h0] at hfp
            exact hfp rfl
          have hinc : ¬(root ++ e.1 <+: q) ∧ ¬(q <+: root ++ e.1) := by
            rw [← not_or]
            intro hor
            exact hcomp ⟨hne, hor⟩
          rw [getPath_setPath_incomp out _ q e.2 hinc.1 hinc.2]
          exact hq
      have hex' : ∃ e' ∈ rest, root ++ e'.1 = q ∧ e'.2 = v := by
        obtain ⟨e', he', hp, hv⟩ := hex
        rcases List.mem_cons.mp he' with rfl | hmem
        · exact absurd ⟨hp ▸ hqne, Or.inl (hp ▸ List.prefix_refl _)⟩ hcomp
        · exact ⟨e', hmem, hp, hv⟩
      rw [List.foldl_cons]
      exact ih _ hstep hex' (fun e' he' => h e' (List.mem_cons_of_mem e he'))

theorem ApplyPayloadConfig_matched (rules : PayloadRules) (model protocol : String)
    (root : List String) (payload : Json)
    (hm : ¬(trimSpace model.data).isEmpty = true) :
    ApplyPayloadConfigWithRoot rules model protocol root payload =
      (matchedParams rules.overrides (String.mk (trimSpace model.data)) protocol).foldl
        (applyOverrideEntry root)
        ((matchedParams rules.defaults (String.mk (trimSpace model.data)) protocol).foldl
          (applyDefaultEntry root) payload) := by
  unfold ApplyPayloadConfigWithRoot
  by_cases hg : rules.defaults.isEmpty = true ∧ rules.overrides.isEmpty = true
  · rw [if_pos hg]
    simp only [List.isEmpty_iff] at hg
    rw [hg.1, hg.2]
    rfl
  · rw [if_neg hg, if_neg hm]
    simp only [foldl_rules_eq_matched]

/-- C8 counterexample: a JSON path can change even though no matching rule
names it.  A single matching override rule for path `a.b` on the empty
object creates the intermediate object at path `a`, so the value at the
un-named path `a` changes from absent to an object. -/
theorem ApplyPayloadConfig_parent_changed :
    (ApplyPayloadConfigWithRoot
        ⟨[], [⟨[⟨"*", ""⟩], [(["a", "b"], Json.num "1")]⟩]⟩ "m" "" [] (Json.obj [])).getPath
        ["a"] ≠ (Json.obj []).getPath ["a"] := by
  decide

/-- C8 (amended): writing to `mt` for the trimmed model, `ds`/`os` for the
parameters of the matching default/override rules, and `fp = root ++ path`
for an entry's full path: (i) the value at any path prefix-incomparable
with every matching entry's full path is unchanged; (ii) a value present
in the payload survives when no matching override entry is comparable to
it and no matching default entry strictly extends it — in particular a
default rule never overwrites an existing path; (iii) when some matching
override entry names exactly `q` with value `v` and every comparable
matching override entry agrees, the output holds `v` at `q` — overrides
always set; (iv) a path absent from the payload that some matching default
entry names (all comparable default entries agreeing, overrides not
touching it) is set by the default rule. -/
theorem ApplyPayloadConfig_spec (rules : PayloadRules) (model protocol : String)
    (root : List String) (payload : Json) (q : List String) :
    ((∀ e ∈ matchedParams rules.defaults (String.mk (trimSpace model.data)) protocol ++
        matchedParams rules.overrides (String.mk (trimSpace model.data)) protocol,
        root ++ e.1 ≠ [] → ¬(root ++ e.1 <+: q) ∧ ¬(q <+: root ++ e.1)) →
      (ApplyPayloadConfigWithRoot rules model protocol root payload).getPath q =
        payload.getPath q) ∧
    (∀ w, payload.getPath q = some w →
      (∀ e ∈ matchedParams rules.defaults (String.mk (trimSpace model.data)) protocol,
        root ++ e.1 ≠ [] → q <+: root ++ e.1 → root ++ e.1 = q) →
      (∀ e ∈ matchedParams rules.overrides (String.mk (trimSpace model.data)) protocol,
        root ++ e.1 ≠ [] → ¬(root ++ e.1 <+: q) ∧ ¬(q <+: root ++ e.1)) →
      (ApplyPayloadConfigWithRoot rules model protocol root payload).getPath q = some w) ∧
    (∀ v, q ≠ [] → ¬(trimSpace model.data).isEmpty = true →
      (∃ e ∈ matchedParams rules.overrides (String.mk (trimSpace model.data)) protocol,
        root ++ e.1 = q ∧ e.2 = v) →
      (∀ e ∈ matchedParams rules.overrides (String.mk (trimSpace model.data)) protocol,
        root ++ e.1 ≠ [] → (root ++ e.1 <+: q ∨ q <+: root ++ e.1) →
        root ++ e.1 = q ∧ e.2 = v) →
      (ApplyPayloadConfigWithRoot rules model protocol root payload).getPath q = some v) ∧
    (∀ v, q ≠ [] → ¬(trimSpace model.data).isEmpty = true → payload.getPath q = none →
      (∃ e ∈ matchedParams rules.defaults (String.mk (trimSpace model.data)) protocol,
        root ++ e.1 = q ∧ e.2 = v) →
      (∀ e ∈ matchedParams rules.defaults (String.mk (trimSpace model.data)) protocol,
        root ++ e.1 ≠ [] → (root ++ e.1 <+: q ∨ q <+: root ++ e.1) →
        root ++ e.1 = q ∧ e.2 = v) →
      (∀ e ∈ matchedParams rules.overrides (String.mk (trimSpace model.data)) protocol,
        root ++ e.1 ≠ [] → ¬(root ++ e.1 <+: q) ∧ ¬(q <+: root ++ e.1)) →
      (ApplyPayloadConfigWithRoot rules model protocol root payload).getPath q = some v) := by
  by_cases hm : (trimSpace model.data).isEmpty = true
  · have hout : ApplyPayloadConfigWithRoot rules model protocol root payload = payload := by
      unfold ApplyPayloadConfigWithRoot
      by_cases hg : rules.defaults.isEmpty = true ∧ rules.overrides.isEmpty = true
      · rw [if_pos hg]
      · rw [if_neg hg, if_pos hm]
    exact ⟨fun _ => by rw [hout], fun w hw _ _ => by rw [hout]; exact hw,
      fun v _ hm2 => absurd hm hm2, fun v _ hm2 => absurd hm hm2⟩
  · have hbr := ApplyPayloadConfig_matched rules model protocol root payload hm
    refine ⟨?_, ?_, ?_, ?_⟩
    · intro hincomp
      rw [hbr,
        foldOverride_frame _ _ _ _
          (fun e he => hincomp e (List.mem_append.mpr (Or.inr he))),
        foldDefault_frame _ _ _ _
          (fun e he => hincomp e (List.mem_append.mpr (Or.inl he)))]
    · intro w hw hd ho
      rw [hbr, foldOverride_frame _ _ _ _ ho]
      exact foldDefault_keep _ _ _ _ _ hw hd
    · intro v hqne _ hex hall
      rw [hbr]
      exact foldOverride_estab root _ _ q v hqne hex hall
    · intro v hqne _ hnone hex hd ho
      rw [hbr, foldOverride_frame _ _ _ _ ho]
      exact foldDefault_estab root _ _ q v hqne hnone hex hd

/-- Witness for C8: a matching override rule for path `a` with value `2`
rewrites the payload value `1` at `a` to `2`. -/
theorem ApplyPayloadConfig_spec_witness :
    (ApplyPayloadConfigWithRoot
        ⟨[], [⟨[⟨"*", ""⟩], [(["a"], Json.num "2")]⟩]⟩ "m" "" []
        (Json.obj [("a", Json.num "1")])).getPath ["a"] = some (Json.num "2") :=
  (ApplyPayloadConfig_spec ⟨[], [⟨[⟨"*", ""⟩], [(["a"], Json.num "2")]⟩]⟩ "m" "" []
      (Json.obj [("a", Json.num "1")]) ["a"]).2.2.1 (Json.num "2")
    (by decide) (by decide) (by decide) (by decide)

theorem allStars_no_star : ∀ l : List Char, (∀ c ∈ l, c ≠ '*') → allStars l = decide (l = [])
  | [], _ => rfl
  | c :: rest, h => by
    have hc : c ≠ '*' := h c (List.mem_cons_self c rest)
    simp [allStars, hc]

theorem wildLoop_nostar (p m : List Char) (hp : '*' ∉ p) (pi si mi : Nat) (h : mi ≤ si) :
    wildLoop p m pi si none mi h = decide (p.drop pi = m.drop si) := by
  by_cases hsi : si < m.length
  · by_cases hmc : pi < p.length ∧ p.get? pi = m.get? si
    · rw [wildLoop_char p m pi si none mi h (by omega) hsi hmc,
        wildLoop_nostar p m hp (pi + 1) (si + 1) mi (by omega)]
      have hdp : p.drop pi = p[pi] :: p.drop (pi + 1) := List.drop_eq_getElem_cons hmc.1
      have hdm : m.drop si = m[si] :: m.drop (si + 1) := List.drop_eq_getElem_cons hsi
      have hchar : p[pi] = m[si] := by
        have h2 := hmc.2
        rw [List.get?_eq_getElem?, List.get?_eq_getElem?, List.getElem?_eq_getElem hmc.1,
          List.getElem?_eq_getElem hsi] at h2
        exact Option.some.inj h2
      rw [decide_eq_decide]
      constructor
      · intro ht
        rw [hdp, hdm, hchar, ht]
      · intro ht
        rw [hdp, hdm] at ht
        injection ht
    · have hs : ¬(pi < p.length ∧ p.get? pi = some '*') := by
        rintro ⟨-, h2⟩
        exact hp (List.get?_mem h2)
      rw [wildLoop_dead p m pi si mi h hsi hmc hs]
      symm
      rw [decide_eq_false_iff_not]
      intro heq
      have hdm : m.drop si = m[si] :: m.drop (si + 1) := List.drop_eq_getElem_cons hsi
      by_cases h1 : pi < p.length
      · have hdp : p.drop pi = p[pi] :: p.drop (pi + 1) := List.drop_eq_getElem_cons h1
        rw [hdp, hdm] at heq
        injection heq with hh htl
        apply hmc
        refine ⟨h1, ?_⟩
        rw [List.get?_eq_getElem?, List.get?_eq_getElem?, List.getElem?_eq_getElem h1,
          List.getElem?_eq_getElem hsi, hh]
      · have hdp : p.drop pi = [] := List.drop_eq_nil_of_le (by omega)
        rw [hdp, hdm] at heq
        exact List.noConfusion heq
  · rw [wildLoop_exit p m pi si none mi h hsi]
    have hmd : m.drop si = [] := List.drop_eq_nil_of_le (by omega)
    rw [hmd]
    apply allStars_no_star
    intro c hc hc2
    exact hp (hc2 ▸ List.mem_of_mem_drop hc)
termination_by m.length - si

theorem wildLoop_absorb (p m : List Char) (k : Nat) (hk : k + 1 = p.length) (si mi : Nat)
    (h : mi ≤ si) : wildLoop p m p.length si (some k) mi h = true := by
  by_cases hsi : si < m.length
  · have hmc : ¬(p.length < p.length ∧ p.get? p.length = m.get? si) :=
      fun hc => absurd hc.1 (lt_irrefl _)
    have hs : ¬(p.length < p.length ∧ p.get? p.length = some '*') :=
      fun hc => absurd hc.1 (lt_irrefl _)
    rw [wildLoop_back p m p.length si k mi h hsi hmc hs, hk]
    exact wildLoop_absorb p m k hk (mi + 1) (mi + 1) (le_refl _)
  · rw [wildLoop_exit _ _ _ _ _ _ h hsi, List.drop_length]
    rfl
termination_by m.length - mi
decreasing_by omega

theorem wildLoop_prefix (pre m : List Char) (hpre : '*' ∉ pre) (hm : '*' ∉ m)
    (k mi : Nat) (h : mi ≤ k) (hk : k ≤ pre.length) :
    wildLoop (pre ++ ['*']) m k k none mi h = decide (pre.drop k <+: m.drop k) := by
  by_cases hsi : k < m.length
  · by_cases hkp : k < pre.length
    · have hget : (pre ++ ['*']).get? k = pre.get? k := by
        rw [List.get?_eq_getElem?, List.get?_eq_getElem?, List.getElem?_append_left hkp]
      by_cases hchar : (pre ++ ['*']).get? k = m.get? k
      · have hmatch : k < (pre ++ ['*']).length ∧ (pre ++ ['*']).get? k = m.get? k :=
          ⟨by simp; omega, hchar⟩
        rw [wildLoop_char _ _ _ _ _ _ h (by omega) hsi hmatch,
          wildLoop_prefix pre m hpre hm (k + 1) mi (by omega) (by omega)]
        have hdp : pre.drop k = pre[k] :: pre.drop (k + 1) := List.drop_eq_getElem_cons hkp
        have hdm : m.drop k = m[k] :: m.drop (k + 1) := List.drop_eq_getElem_cons hsi
        have hc : pre[k] = m[k] := by
          have h2 := hchar
          rw [hget, List.get?_eq_getElem?, List.get?_eq_getElem?,
            List.getElem?_eq_getElem hkp, List.getElem?_eq_getElem hsi] at h2
          exact Option.some.inj h2
        rw [decide_eq_decide, hdp, hdm, hc, List.cons_prefix_cons]
        simp
      · have hmatch : ¬(k < (pre ++ ['*']).length ∧ (pre ++ ['*']).get? k = m.get? k) :=
          fun hc => hchar hc.2
        have hstar : ¬(k < (pre ++ ['*']).length ∧ (pre ++ ['*']).get? k = some '*') := by
          rintro ⟨-, h2⟩
          rw [hget] at h2
          exact hpre (List.get?_mem h2)
        rw [wildLoop_dead _ _ _ _ _ h hsi hmatch hstar]
        symm
        rw [decide_eq_false_iff_not]
        intro hpfx
        have hdp : pre.drop k = pre[k] :: pre.drop (k + 1) := List.drop_eq_getElem_cons hkp
        have hdm : m.drop k = m[k] :: m.drop (k + 1) := List.drop_eq_getElem_cons hsi
        rw [hdp, hdm, List.cons_prefix_cons] at hpfx
        apply hchar
        rw [hget, List.get?_eq_getElem?, List.get?_eq_getElem?,
          List.getElem?_eq_getElem hkp, List.getElem?_eq_getElem hsi, hpfx.1]
    · have hkeq : k = pre.length := by omega
      subst hkeq
      have hget : (pre ++ ['*']).get? pre.length = some '*' := by
        rw [List.get?_eq_getElem?, List.getElem?_append_right (le_refl _)]
        simp
      have hmatch : ¬(pre.length < (pre ++ ['*']).length ∧
          (pre ++ ['*']).get? pre.length = m.get? pre.length) := by
        rintro ⟨-, h2⟩
        rw [hget] at h2
        exact hm (List.get?_mem h2.symm)
      have hstar : pre.length < (pre ++ ['*']).length ∧
          (pre ++ ['*']).get? pre.length = some '*' := ⟨by simp, hget⟩
      rw [wildLoop_star _ _ _ _ _ _ h hsi hmatch hstar]
      have hlen : pre.length + 1 = (pre ++ ['*']).length := by simp
      rw [hlen, wildLoop_absorb (pre ++ ['*']) m pre.length (by simp) _ _ _]
      simp [List.drop_length, List.nil_prefix]
  · rw [wildLoop_exit _ _ _ _ _ _ h hsi]
    have hmd : m.drop k = [] := List.drop_eq_nil_of_le (by omega)
    rw [hmd]
    by_cases hkp : k < pre.length
    · have hdrop : (pre ++ ['*']).drop k = pre.drop k ++ ['*'] :=
        List.drop_append_of_le_length (by omega)
      have hdp : pre.drop k = pre[k] :: pre.drop (k + 1) := List.drop_eq_getElem_cons hkp
      have hne : pre[k] ≠ '*' := fun hc => hpre (hc ▸ List.getElem_mem hkp)
      rw [hdrop, hdp]
      have h1 : (pre[k] == '*') = false := beq_eq_false_iff_ne.mpr hne
      simp [allStars, h1, show ¬(pre.length ≤ k) from by omega]
    · have hkeq : k = pre.length := by omega
      subst hkeq
      have hdrop : (pre ++ ['*']).drop pre.length = ['*'] := by
        rw [List.drop_append_of_le_length (le_refl _), List.drop_length, List.nil_append]
      rw [hdrop, List.drop_length]
      simp [allStars]
termination_by pre.length - k

theorem wildLoop_suffix_scan (suf m : List Char) (hsuf : '*' ∉ suf) (hm : '*' ∉ m)
    (k t : Nat) :
    wildLoop ('*' :: suf) m (t + 1) (k + t) (some 0) k (Nat.le_add_right k t) =
      decide (suf.drop t = m.drop (k + t) ∨ suf <:+ m.drop (k + 1)) := by
  by_cases hsi : k + t < m.length
  · have hget : ('*' :: suf).get? (t + 1) = suf.get? t := List.get?_cons_succ
    by_cases hmatch : (t + 1) < ('*' :: suf).length ∧ ('*' :: suf).get? (t + 1) = m.get? (k + t)
    · have htlen : t < suf.length := by
        have h1 := hmatch.1
        simp only [List.length_cons] at h1
        omega
      have hchar : suf[t] = m[k + t] := by
        have h2 := hmatch.2
        rw [hget, List.get?_eq_getElem?, List.get?_eq_getElem?, List.getElem?_eq_getElem htlen,
          List.getElem?_eq_getElem hsi] at h2
        exact Option.some.inj h2
      rw [wildLoop_char _ _ _ _ _ _ _ (by omega) hsi hmatch]
      have hrec := wildLoop_suffix_scan suf m hsuf hm k (t + 1)
      refine hrec.trans ?_
      rw [decide_eq_decide]
      have hds : suf.drop t = suf[t] :: suf.drop (t + 1) := List.drop_eq_getElem_cons htlen
      have hdm : m.drop (k + t) = m[k + t] :: m.drop (k + t + 1) := List.drop_eq_getElem_cons hsi
      constructor
      · rintro (hc | hc)
        · left
          rw [hds, hdm, hchar, hc]
          rfl
        · right
          exact hc
      · rintro (hc | hc)
        · left
          rw [hds, hdm] at hc
          exact ((List.cons.injEq _ _ _ _).mp hc).2
        · right
          exact hc
    · have hstar : ¬((t + 1) < ('*' :: suf).length ∧ ('*' :: suf).get? (t + 1) = some '*') := by
        rintro ⟨-, h2⟩
        rw [hget] at h2
        exact hsuf (List.get?_mem h2)
      rw [wildLoop_back _ _ _ _ _ _ _ hsi hmatch hstar]
      have hrec := wildLoop_suffix_scan suf m hsuf hm (k + 1) 0
      refine hrec.trans ?_
      rw [decide_eq_decide]
      have hd1 : ¬(suf.drop t = m.drop (k + t)) := by
        by_cases htlen : t < suf.length
        · intro heq
          have hds : suf.drop t = suf[t] :: suf.drop (t + 1) := List.drop_eq_getElem_cons htlen
          have hdm : m.drop (k + t) = m[k + t] :: m.drop (k + t + 1) :=
            List.drop_eq_getElem_cons hsi
          rw [hds, hdm] at heq
          injection heq with h1 h2
          apply hmatch
          refine ⟨by simp only [List.length_cons]; omega, ?_⟩
          rw [hget, List.get?_eq_getElem?, List.get?_eq_getElem?,
            List.getElem?_eq_getElem htlen, List.getElem?_eq_getElem hsi, h1]
        · intro heq
          have hds : suf.drop t = [] := List.drop_eq_nil_of_le (by omega)
          have hdm : m.drop (k + t) = m[k + t] :: m.drop (k + t + 1) :=
            List.drop_eq_getElem_cons hsi
          rw [hds, hdm] at heq
          exact List.noConfusion heq
      have hsuffix : (suf <:+ m.drop (k + 1)) ↔
          (suf = m.drop (k + 1) ∨ suf <:+ m.drop (k + 1 + 1)) := by
        by_cases hk1 : k + 1 < m.length
        · have hdm : m.drop (k + 1) = m[k + 1] :: m.drop (k + 1 + 1) :=
            List.drop_eq_getElem_cons hk1
          rw [hdm, List.suffix_cons_iff]
        · have h1 : m.drop (k + 1) = [] := List.drop_eq_nil_of_le (by omega)
          have h2 : m.drop (k + 1 + 1) = [] := List.drop_eq_nil_of_le (by omega)
          rw [h1, h2]
          constructor
          · intro hs
            exact Or.inl (List.suffix_nil.mp hs)
          · rintro (hs | hs)
            · rw [hs]
            · exact hs
      constructor
      · rintro (hc | hc)
        · exact Or.inr (hsuffix.mpr (Or.inl hc))
        · exact Or.inr (hsuffix.mpr (Or.inr hc))
      · rintro (hc | hc)
        · exact absurd hc hd1
        · rcases hsuffix.mp hc with h1 | h1
          · exact Or.inl h1
          · exact Or.inr h1
  · rw [wildLoop_exit _ _ _ _ _ _ _ hsi]
    have hdrop : ('*' :: suf).drop (t + 1) = suf.drop t := List.drop_succ_cons
    rw [hdrop]
    by_cases htlen : t < suf.length
    · have hds : suf.drop t = suf[t] :: suf.drop (t + 1) := List.drop_eq_getElem_cons htlen
      have hne : suf[t] ≠ '*' := fun hc => hsuf (hc ▸ List.getElem_mem htlen)
      have h1 : (suf[t] == '*') = false := beq_eq_false_iff_ne.mpr hne
      have hmd : m.drop (k + t) = [] := List.drop_eq_nil_of_le (by omega)
      have hd2 : ¬(suf <:+ m.drop (k + 1)) := by
        intro hs
        have hlen := hs.length_le
        rw [List.length_drop] at hlen
        omega
      rw [hds, hmd]
      simp [allStars, h1, hd2, htlen]
    · have hds : suf.drop t = [] := List.drop_eq_nil_of_le (by omega)
      have hmd : m.drop (k + t) = [] := List.drop_eq_nil_of_le (by omega)
      rw [hds, hmd]
      simp [allStars]
termination_by (m.length - k, m.length - (k + t))
decreasing_by
  all_goals first
    | (apply Prod.Lex.right; omega)
    | (apply Prod.Lex.left; omega)

theorem wildLoop_infix_scan (mid m : List Char) (hmid : '*' ∉ mid) (hm : '*' ∉ m)
    (k t : Nat) (ht : t ≤ mid.length) :
    wildLoop ('*' :: (mid ++ ['*'])) m (t + 1) (k + t) (some 0) k (Nat.le_add_right k t) =
      decide (mid.drop t <+: m.drop (k + t) ∨ mid <:+: m.drop (k + 1)) := by
  by_cases hsi : k + t < m.length
  · by_cases htlen : t < mid.length
    · have hget : ('*' :: (mid ++ ['*'])).get? (t + 1) = some mid[t] := by
        rw [List.get?_cons_succ, List.get?_eq_getElem?, List.getElem?_append_left htlen,
          List.getElem?_eq_getElem htlen]
      by_cases hcc : mid[t] = m[k + t]
      · have hmatch : (t + 1) < ('*' :: (mid ++ ['*'])).length ∧
            ('*' :: (mid ++ ['*'])).get? (t + 1) = m.get? (k + t) := by
          refine ⟨by simp only [List.length_cons, List.length_append]; omega, ?_⟩
          rw [hget, hcc, List.get?_eq_getElem?, List.getElem?_eq_getElem hsi]
        rw [wildLoop_char _ _ _ _ _ _ _ (by omega) hsi hmatch]
        have hrec := wildLoop_infix_scan mid m hmid hm k (t + 1) (by omega)
        refine hrec.trans ?_
        rw [decide_eq_decide]
        have hds : mid.drop t = mid[t] :: mid.drop (t + 1) := List.drop_eq_getElem_cons htlen
        have hdm : m.drop (k + t) = m[k + t] :: m.drop (k + t + 1) :=
          List.drop_eq_getElem_cons hsi
        constructor
        · rintro (hc | hc)
          · left
            rw [hds, hdm, List.cons_prefix_cons]
            exact ⟨hcc, hc⟩
          · right
            exact hc
        · rintro (hc | hc)
          · left
            rw [hds, hdm, List.cons_prefix_cons] at hc
            exact hc.2
          · right
            exact hc
      · have hmatch : ¬((t + 1) < ('*' :: (mid ++ ['*'])).length ∧
            ('*' :: (mid ++ ['*'])).get? (t + 1) = m.get? (k + t)) := by
          rintro ⟨-, h2⟩
          rw [hget, List.get?_eq_getElem?, List.getElem?_eq_getElem hsi] at h2
          exact hcc (Option.some.inj h2)
        have hstar : ¬((t + 1) < ('*' :: (mid ++ ['*'])).length ∧
            ('*' :: (mid ++ ['*'])).get? (t + 1) = some '*') := by
          rintro ⟨-, h2⟩
          rw [hget] at h2
          have hq := Option.some.inj h2
          apply hmid
          rw [← hq]
          exact List.getElem_mem htlen
        rw [wildLoop_back _ _ _ _ _ _ _ hsi hmatch hstar]
        have hrec := wildLoop_infix_scan mid m hmid hm (k + 1) 0 (by omega)
        refine hrec.trans ?_
        rw [decide_eq_decide]
        have hd1 : ¬(mid.drop t <+: m.drop (k + t)) := by
          intro hpfx
          have hds : mid.drop t = mid[t] :: mid.drop (t + 1) := List.drop_eq_getElem_cons htlen
          have hdm : m.drop (k + t) = m[k + t] :: m.drop (k + t + 1) :=
            List.drop_eq_getElem_cons hsi
          rw [hds, hdm, List.cons_prefix_cons] at hpfx
          exact hcc hpfx.1
        have hinf : mid <:+: m.drop (k + 1) ↔
            (mid <+: m.drop (k + 1) ∨ mid <:+: m.drop (k + 1 + 1)) := by
          by_cases hk1 : k + 1 < m.length
          · have hdm1 : m.drop (k + 1) = m[k + 1] :: m.drop (k + 1 + 1) :=
              List.drop_eq_getElem_cons hk1
            rw [hdm1, List.infix_cons_iff]
          · have h1 : m.drop (k + 1) = [] := List.drop_eq_nil_of_le (by omega)
            have h2 : m.drop (k + 1 + 1) = [] := List.drop_eq_nil_of_le (by omega)
            rw [h1, h2]
            constructor
            · exact fun hs => Or.inr hs
            · rintro (hs | hs)
              · exact hs.isInfix
              · exact hs
        constructor
        · rintro (hc | hc)
          · exact Or.inr (hinf.mpr (Or.inl hc))
          · exact Or.inr (hinf.mpr (Or.inr hc))
        · rintro (hc | hc)
          · exact absurd hc hd1
          · rcases hinf.mp hc with h1 | h1
            · exact Or.inl h1
            · exact Or.inr h1
    · have hteq : t = mid.length := by omega
      subst hteq
      have hget : ('*' :: (mid ++ ['*'])).get? (mid.length + 1) = some '*' := by
        rw [List.get?_cons_succ, List.get?_eq_getElem?, List.getElem?_append_right (le_refl _)]
        simp
      have hmatch : ¬(mid.length + 1 < ('*' :: (mid ++ ['*'])).length ∧
          ('*' :: (mid ++ ['*'])).get? (mid.length + 1) = m.get? (k + mid.length)) := by
        rintro ⟨-, h2⟩
        rw [hget] at h2
        exact hm (List.get?_mem h2.symm)
      have hstar : mid.length + 1 < ('*' :: (mid ++ ['*'])).length ∧
          ('*' :: (mid ++ ['*'])).get? (mid.length + 1) = some '*' := ⟨by simp, hget⟩
      rw [wildLoop_star _ _ _ _ _ _ _ hsi hmatch hstar]
      have hlen : mid.length + 1 + 1 = ('*' :: (mid ++ ['*'])).length := by simp
      rw [hlen, wildLoop_absorb ('*' :: (mid ++ ['*'])) m (mid.length + 1) (by simp) _ _ _]
      simp [List.drop_length, List.nil_prefix]
  · rw [wildLoop_exit _ _ _ _ _ _ _ hsi]
    have hdrop : ('*' :: (mid ++ ['*'])).drop (t + 1) = (mid ++ ['*']).drop t :=
      List.drop_succ_cons
    rw [hdrop]
    have hmd : m.drop (k + t) = [] := List.drop_eq_nil_of_le (by omega)
    by_cases htlen : t < mid.length
    · have hdrop2 : (mid ++ ['*']).drop t = mid.drop t ++ ['*'] :=
        List.drop_append_of_le_length (by omega)
      have hds : mid.drop t = mid[t] :: mid.drop (t + 1) := List.drop_eq_getElem_cons htlen
      have hne : mid[t] ≠ '*' := fun hc => hmid (hc ▸ List.getElem_mem htlen)
      have h1 : (mid[t] == '*') = false := beq_eq_false_iff_ne.mpr hne
      have hd2 : ¬(mid <:+: m.drop (k + 1)) := by
        intro hs
        have hlen := hs.length_le
        rw [List.length_drop] at hlen
        omega
      rw [hdrop2, hds, hmd]
      simp [allStars, h1, hd2, List.prefix_nil, htlen]
    · have hteq : t = mid.length := by omega
      subst hteq
      have hdrop2 : (mid ++ ['*']).drop mid.length = ['*'] := by
        rw [List.drop_append_of_le_length (le_refl _), List.drop_length, List.nil_append]
      rw [hdrop2, hmd, List.drop_length]
      simp [allStars]
termination_by (m.length - k, m.length - (k + t))
decreasing_by
  all_goals first
    | (apply Prod.Lex.right; omega)
    | (apply Prod.Lex.left; omega)

theorem suffix_iff_eq_or_drop (suf m : List Char) :
    suf <:+ m ↔ (suf = m ∨ suf <:+ m.drop 1) := by
  constructor
  · rintro ⟨pfx, hp⟩
    cases pfx with
    | nil => exact Or.inl (by simpa using hp)
    | cons a l =>
      right
      have hd : m.drop 1 = l ++ suf := by
        rw [← hp]
        rfl
      rw [hd]
      exact List.suffix_append l suf
  · rintro (hs | hs)
    · exact hs ▸ List.suffix_rfl
    · exact hs.trans (List.drop_suffix 1 m)

theorem infix_iff_prefix_or_drop (mid m : List Char) :
    mid <:+: m ↔ (mid <+: m ∨ mid <:+: m.drop 1) := by
  cases m with
  | nil =>
    simp
  | cons a l =>
    rw [List.infix_cons_iff]
    exact Iff.rfl

/-- C7 (amended): the glob semantics of `MatchModelPattern` on trimmed
inputs, restricted to models not containing a literal `*`.  The pattern
`*` matches every model; a `*`-free nonempty pattern matches exactly the
identical model; `prefix*` matches exactly the models with that prefix;
`*suffix` exactly those with that suffix; `*mid*` exactly those containing
`mid`.  The restriction is necessary: the state machine checks the literal
character match before the `*` branch, so a `*` in the model is consumed
as an ordinary character and `prefix*` can reject a model that begins with
the prefix (see the counterexample). -/
theorem MatchModelPattern_shapes (pattern model : String)
    (hpt : trimSpace pattern.data = pattern.data)
    (hmt : trimSpace model.data = model.data)
    (hm : '*' ∉ model.data) :
    (MatchModelPattern "*" model = true) ∧
    ('*' ∉ pattern.data → pattern.data ≠ [] →
      (MatchModelPattern pattern model = true ↔ pattern.data = model.data)) ∧
    (∀ pre : List Char, pattern.data = pre ++ ['*'] → '*' ∉ pre →
      (MatchModelPattern pattern model = true ↔ pre <+: model.data)) ∧
    (∀ suf : List Char, pattern.data = '*' :: suf → '*' ∉ suf →
      (MatchModelPattern pattern model = true ↔ suf <:+ model.data)) ∧
    (∀ mid : List Char, pattern.data = '*' :: (mid ++ ['*']) → '*' ∉ mid →
      (MatchModelPattern pattern model = true ↔ mid <:+: model.data)) := by
  have hMM : MatchModelPattern pattern model =
      (if pattern.data.isEmpty then false
       else if pattern.data = ['*'] then true
       else wildLoop pattern.data model.data 0 0 none 0 (le_refl 0)) := by
    simp only [MatchModelPattern, hpt, hmt]
  refine ⟨?_, ?_, ?_, ?_, ?_⟩
  · have hp : trimSpace ("*" : String).data = ['*'] := by decide
    simp [MatchModelPattern, hp]
  · intro hps hne
    rw [hMM]
    have hne2 : pattern.data ≠ ['*'] := by
      intro hc
      apply hps
      rw [hc]
      exact List.mem_singleton_self '*'
    rw [if_neg (by simp [List.isEmpty_iff, hne]), if_neg hne2]
    rw [wildLoop_nostar pattern.data model.data hps 0 0 0 (le_refl 0)]
    simp [List.drop_zero]
  · intro pre hpe hpre
    by_cases hpnil : pre = []
    · subst hpnil
      rw [hMM]
      simp [hpe, List.nil_prefix]
    · rw [hMM]
      have hne : pattern.data ≠ [] := by simp [hpe]
      have hne2 : pattern.data ≠ ['*'] := by
        rw [hpe]
        intro hc
        have hlc := congrArg List.length hc
        simp at hlc
        exact hpnil hlc
      rw [if_neg (by simp [List.isEmpty_iff, hne]), if_neg hne2, hpe,
        wildLoop_prefix pre model.data hpre hm 0 0 (le_refl 0) (Nat.zero_le _)]
      simp [List.drop_zero]
  · intro suf hpe hsuf
    by_cases hsnil : suf = []
    · subst hsnil
      rw [hMM]
      simp [hpe, List.nil_suffix]
    · rw [hMM]
      have hne : pattern.data ≠ [] := by simp [hpe]
      have hne2 : pattern.data ≠ ['*'] := by
        rw [hpe]
        intro hc
        injection hc with h1 h2
        exact hsnil h2
      rw [if_neg (by simp [List.isEmpty_iff, hne]), if_neg hne2, hpe]
      by_cases hmlen : 0 < model.data.length
      · have hmatch : ¬(0 < ('*' :: suf).length ∧
            ('*' :: suf).get? 0 = model.data.get? 0) := by
          rintro ⟨-, h2⟩
          have h3 : model.data.get? 0 = some '*' := by
            rw [← h2]
            rfl
          exact hm (List.get?_mem h3)
        have hstar : 0 < ('*' :: suf).length ∧ ('*' :: suf).get? 0 = some '*' :=
          ⟨by simp, rfl⟩
        rw [wildLoop_star _ _ _ _ _ _ _ hmlen hmatch hstar]
        have hX : wildLoop ('*' :: suf) model.data 1 0 (some 0) 0 (le_refl 0) =
            decide (suf = model.data ∨ suf <:+ model.data.drop 1) :=
          wildLoop_suffix_scan suf model.data hsuf hm 0 0
        rw [hX, decide_eq_true_iff]
        exact (suffix_iff_eq_or_drop suf model.data).symm
      · have hmnil : model.data = [] := List.eq_nil_of_length_eq_zero (by omega)
        rw [wildLoop_exit _ _ _ _ _ _ (le_refl 0) (by omega), hmnil]
        have h3 : allStars suf = decide (suf = []) :=
          allStars_no_star suf (fun c hc hc2 => hsuf (hc2 ▸ hc))
        simp [List.drop_zero, allStars, h3, hsnil, List.suffix_nil]
  · intro mid hpe hmid
    rw [hMM]
    have hne : pattern.data ≠ [] := by simp [hpe]
    have hne2 : pattern.data ≠ ['*'] := by
      rw [hpe]
      intro hc
      injection hc with h1 h2
      simp at h2
    rw [if_neg (by simp [List.isEmpty_iff, hne]), if_neg hne2, hpe]
    by_cases hmlen : 0 < model.data.length
    · have hmatch : ¬(0 < ('*' :: (mid ++ ['*'])).length ∧
          ('*' :: (mid ++ ['*'])).get? 0 = model.data.get? 0) := by
        rintro ⟨-, h2⟩
        have h3 : model.data.get? 0 = some '*' := by
          rw [← h2]
          rfl
        exact hm (List.get?_mem h3)
      have hstar : 0 < ('*' :: (mid ++ ['*'])).length ∧
          ('*' :: (mid ++ ['*'])).get? 0 = some '*' := ⟨by simp, rfl⟩
      rw [wildLoop_star _ _ _ _ _ _ _ hmlen hmatch hstar]
      have hX : wildLoop ('*' :: (mid ++ ['*'])) model.data 1 0 (some 0) 0 (le_refl 0) =
          decide (mid <+: model.data ∨ mid <:+: model.data.drop 1) :=
        wildLoop_infix_scan mid model.data hmid hm 0 0 (Nat.zero_le _)
      rw [hX, decide_eq_true_iff]
      exact (infix_iff_prefix_or_drop mid model.data).symm
    · have hmnil : model.data = [] := List.eq_nil_of_length_eq_zero (by omega)
      rw [wildLoop_exit _ _ _ _ _ _ (le_refl 0) (by omega), hmnil]
      cases mid with
      | nil =>
        simp [allStars]
      | cons a l =>
        have hna : (a == '*') = false :=
          beq_eq_false_iff_ne.mpr (fun hc => hmid (by rw [← hc]; exact List.mem_cons_self a l))
        simp [allStars, hna, List.infix_nil]

/-- C7 counterexample: the spec says `prefix*` matches every model
beginning with the prefix, but a literal `*` inside the model is consumed
by the character-match branch (checked before the star branch), so pattern
`a*` rejects model `a*b` even though `a` is a prefix of it. -/
theorem MatchModelPattern_literal_star_breaks :
    MatchModelPattern "a*" "a*b" = false ∧
      ("a" : String).data <+: ("a*b" : String).data := by
  constructor
  · have h0 : MatchModelPattern "a*" "a*b" =
        wildLoop ['a', '*'] ['a', '*', 'b'] 0 0 none 0 (le_refl 0) := rfl
    rw [h0]
    rw [wildLoop_char _ _ 0 0 none 0 (le_refl 0) (by omega) (by decide) (by decide)]
    rw [wildLoop_char _ _ 1 1 none 0 (by omega) (by omega) (by decide) (by decide)]
    exact wildLoop_dead _ _ 2 2 0 (by omega) (by decide) (by decide) (by decide)
  · decide

/-- Witness for C7 at concrete strings: `gpt-4*` is `"gpt-4" ++ "*"`, the
model `gpt-4o` is star-free and trim-fixed, and the amended theorem
reduces the match to the list-prefix test. -/
theorem MatchModelPattern_shapes_witness :
    trimSpace ("gpt-4*" : String).data = ("gpt-4*" : String).data ∧
    trimSpace ("gpt-4o" : String).data = ("gpt-4o" : String).data ∧
    '*' ∉ ("gpt-4o" : String).data ∧
    (MatchModelPattern "gpt-4*" "gpt-4o" = true ↔
      ("gpt-4" : String).data <+: ("gpt-4o" : String).data) :=
  ⟨by decide, by decide, by decide,
    (MatchModelPattern_shapes "gpt-4*" "gpt-4o" (by decide) (by decide)
        (by decide)).2.2.1 ("gpt-4" : String).data (by decide) (by decide)⟩

end LlmMux
